import Mathlib

/-
Verification of the formula data model and query structure of
src/language/foq.py (CLMPT repository).

The Python module is shallowly embedded:
  - Python dicts are association lists over String keys; insertion order is
    preserved; updating an existing key keeps its position (Python 3.7+ dicts).
  - Nested "ldict" values (the wire format) are embedded as the PyVal type.
  - Python objects are structures.  Attributes that __init__ does not set but
    other methods read or write (Term.entity_id_list, Atomic.name,
    Atomic.relation_id_list, Atomic.skolem_negation) are Option fields,
    none = attribute absent (reading it raises AttributeError).
    Term.parent_predicate, a non-owning back reference never read by any
    code the claims touch, is omitted.
  - Fallible code returns Except String (the String names the Python
    exception).  Code that mutates state and can also raise returns the
    mutated state together with an Option String: Python exceptions do not
    roll back prior in-place mutations.
  - Recursive functions over the untyped nested-dict values take a fuel
    argument; running out of fuel models Python's RecursionError.  The
    unbounded while-loop of get_bfs_variable_ordering runs on a fuel that
    is proved sufficient (theorem bfsLoop_isSome_of_lt below).
-/

namespace Foq

/-! # Definitions -/

/-! ## Python values and dict primitives -/

/-- A Python value as used by the foq.py wire format: strings, ints,
lists and string-keyed dicts. -/
inductive PyVal where
  | pstr : String → PyVal
  | pint : Int → PyVal
  | plist : List PyVal → PyVal
  | pdict : List (String × PyVal) → PyVal

/-- Python dict lookup (first matching key). -/
def dictGet {α : Type} : List (String × α) → String → Option α
  | [], _ => none
  | (k', v') :: rest, k => if k' = k then some v' else dictGet rest k

/-- Python dict assignment `d[k] = v`: overwrite in place when the key is
present, append a new entry otherwise. -/
def dictSet {α : Type} : List (String × α) → String → α → List (String × α)
  | [], k, v => [(k, v)]
  | (k', v') :: rest, k, v =>
    if k' = k then (k', v) :: rest else (k', v') :: dictSet rest k v

/-- `collections.defaultdict(list)` access followed by `.append(v)`:
`d[k].append(v)` creates the entry `k ↦ []` first when `k` is absent. -/
def ddAppend {β : Type} : List (String × List β) → String → β → List (String × List β)
  | [], k, v => [(k, [v])]
  | (k', l) :: rest, k, v =>
    if k' = k then (k', l ++ [v]) :: rest else (k', l) :: ddAppend rest k v

/-- The keys of a dict, in order. -/
def keysOf {α : Type} (d : List (String × α)) : List String := d.map (·.1)

/-- Python subscript access `v[k]` on a nested value: KeyError when the key
is absent, TypeError when `v` is not a dict. -/
def pyGet (v : PyVal) (k : String) : Except String PyVal :=
  match v with
  | .pdict d =>
    match dictGet d k with
    | some x => .ok x
    | none => .error ("KeyError: " ++ k)
  | _ => .error "TypeError: value is not subscriptable"

/-- Python membership test `k in v` for a dict value (False on non-dicts is
collapsed to an error; the module only ever applies it to dicts). -/
def pyHasKey (v : PyVal) (k : String) : Bool :=
  match v with
  | .pdict d => (dictGet d k).isSome
  | _ => false

/-- Does the PyVal equal the given op-tag string? (`op == Term.op` etc.) -/
def opIs (v : PyVal) (s : String) : Bool :=
  match v with
  | .pstr t => t = s
  | _ => false

/-- Dynamic-typing shim: the value must be a string. -/
def asStr (v : PyVal) : Except String String :=
  match v with
  | .pstr s => .ok s
  | _ => .error "TypeError: expected str"

/-- Dynamic-typing shim: the value must be an int. -/
def asInt (v : PyVal) : Except String Int :=
  match v with
  | .pint i => .ok i
  | _ => .error "TypeError: expected int"

/-- Dynamic-typing shim: the value must be a list of ints. -/
def asIntList (v : PyVal) : Except String (List Int) :=
  match v with
  | .plist l =>
    l.foldr (fun x acc => do
      let i ← asInt x
      let rest ← acc
      pure (i :: rest)) (pure [])
  | _ => .error "TypeError: expected list"

/-! ## Term (foq.py lines 102-158) -/

/-- `Term`: a named variable or constant with a quantifier state.
`entity_id_list` is not set by `__init__`; `Term.parse` sets it, and
`to_ldict` reads it (AttributeError when absent). -/
structure Term where
  state : Int
  name : String
  entity_id_list : Option (List Int) := none

def Term.EXISTENTIAL : Int := 1

def Term.FREE : Int := 2

def Term.UNIVERSAL : Int := 3

def Term.SYMBOL : Int := 4

/-- `Term.__init__(self, state, name)`. -/
def Term.mk' (state : Int) (name : String) : Term :=
  { state := state, name := name, entity_id_list := none }

/-- `Term.parse(cls, ldict)`.  The keyword call `cls(name=name, state=state)`
binds the parameters `state` and `name` of `__init__` correctly. -/
def Term.parse (v : PyVal) : Except String Term := do
  let op ← pyGet v "op"
  unless opIs op "term" do throw "AssertionError"
  let args ← pyGet v "args"
  let namev ← pyGet args "name"
  let statev ← pyGet args "state"
  let name ← asStr namev
  let state ← asInt statev
  let eidv ← pyGet args "entity_id_list"
  let eid ← asIntList eidv
  pure { state := state, name := name, entity_id_list := some eid }

/-- `Term.to_ldict(self)`: reads `self.entity_id_list`, which `__init__`
never sets (AttributeError when absent). -/
def Term.to_ldict (t : Term) : Except String PyVal :=
  match t.entity_id_list with
  | none => .error "AttributeError: entity_id_list"
  | some l =>
    .ok (.pdict [("op", .pstr "term"),
                 ("args", .pdict [("state", .pint t.state),
                                  ("name", .pstr t.name),
                                  ("entity_id_list", .plist (l.map .pint))])])

/-- `Term.lstr`. -/
def Term.lstr (t : Term) : String := t.name

/-! ## Atomic (foq.py lines 188-244) -/

/-- `Atomic`: `relation(head, tail)`.  `__init__` sets `relation`, `head`,
`tail` and `negated = False`.  The attributes `name` and `relation_id_list`
are not set by `__init__` (the line `self.relation_id_list = []` is
commented out in the source); `to_ldict` reads both.  `skolem_negation` is
only ever set by `Negation.parse`. -/
structure Atomic where
  relation : String
  head : Term
  tail : Term
  negated : Bool := false
  name : Option String := none
  relation_id_list : Option (List Int) := none
  skolem_negation : Option Bool := none

/-- `Atomic.__init__(self, relation, head, tail)`. -/
def Atomic.mk' (relation : String) (head tail : Term) : Atomic :=
  { relation := relation, head := head, tail := tail, negated := false,
    name := none, relation_id_list := none, skolem_negation := none }

/-- `Atomic.lstr`. -/
def Atomic.lstr (a : Atomic) : String :=
  a.relation ++ "(" ++ a.head.name ++ "," ++ a.tail.name ++ ")"

/-- `Atomic.get_terms(self)`. -/
def Atomic.get_terms (a : Atomic) : List Term := [a.head, a.tail]

/-- `Atomic.parse(cls, ldict)`.  After reading `name`, `head` and `tail`
from the dict, the source executes `obj = cls(name=name, head=head,
tail=tail)`.  `Atomic.__init__` has parameters `(relation, head, tail)` and
no parameter called `name`, so this keyword call raises TypeError before
`obj.relation_id_list = args['relation_id_list']` is reached. -/
def Atomic.parse (v : PyVal) : Except String Atomic := do
  let op ← pyGet v "op"
  unless opIs op "pred" do throw "AssertionError"
  let args ← pyGet v "args"
  let _name ← pyGet args "name"
  let _head ← Term.parse (← pyGet args "head")
  let _tail ← Term.parse (← pyGet args "tail")
  throw "TypeError: __init__ got an unexpected keyword argument name"

/-- `Atomic.to_ldict(self)`: evaluates `self.name` (never set by
`__init__`;  AttributeError when absent), then `self.relation_id_list`
(same), then serializes head and tail. -/
def Atomic.to_ldict (a : Atomic) : Except String PyVal := do
  let nm ← match a.name with
    | none => Except.error "AttributeError: name"
    | some nm => Except.ok nm
  let rl ← match a.relation_id_list with
    | none => Except.error "AttributeError: relation_id_list"
    | some rl => Except.ok rl
  let h ← Term.to_ldict a.head
  let t ← Term.to_ldict a.tail
  pure (.pdict [("op", .pstr "pred"),
                ("args", .pdict [("name", .pstr nm),
                                 ("relation_id_list", .plist (rl.map .pint)),
                                 ("head", h),
                                 ("tail", t)])])

/-! ## Formula tree (foq.py lines 161-364) -/

mutual

/-- The Formula tree: Atomic is the only leaf; Negation wraps one
sub-formula; Conjunction and Disjunction wrap an ordered sequence. -/
inductive Formula where
  | atomic : Atomic → Formula
  | negation : Formula → Formula
  | conjunction : FormulaList → Formula
  | disjunction : FormulaList → Formula

/-- An ordered sequence of sub-formulas (the Python list held by a
Conjunction or Disjunction node). -/
inductive FormulaList where
  | nil : FormulaList
  | cons : Formula → FormulaList → FormulaList
end

/-- The `op` class attribute of the variant a formula object belongs to. -/
def Formula.op : Formula → String
  | .atomic _ => "pred"
  | .negation _ => "neg"
  | .conjunction _ => "conj"
  | .disjunction _ => "disj"

mutual

/-- `lstr` of each Formula variant (foq.py lines 230-233, 274-277,
312-315, 351-354). -/
def Formula.lstr : Formula → String
  | .atomic a => a.lstr
  | .negation f => "!(" ++ Formula.lstr f ++ ")"
  | .conjunction fs => String.intercalate "&" (lstrParenList fs)
  | .disjunction fs => String.intercalate "|" (lstrParenList fs)

/-- The list `[f"({f.lstr})" for f in formulas]`. -/
def lstrParenList : FormulaList → List String
  | .nil => []
  | .cons f fs => ("(" ++ Formula.lstr f ++ ")") :: lstrParenList fs
end

mutual

/-- `get_atomics` of each Formula variant: a dict keyed by `lstr`, built
bottom-up with Python `dict.update` (last write wins, position kept). -/
def Formula.get_atomics : Formula → List (String × Atomic)
  | .atomic a => [(a.lstr, a)]
  | .negation f => (Formula.get_atomics f).foldl (fun acc p => dictSet acc p.1 p.2) []
  | .conjunction fs => gaFold [] fs
  | .disjunction fs => gaFold [] fs

/-- `ans = {}; for f in self.formulas: ans.update(f.get_atomics())`. -/
def gaFold : List (String × Atomic) → FormulaList → List (String × Atomic)
  | acc, .nil => acc
  | acc, .cons f fs =>
    gaFold ((Formula.get_atomics f).foldl (fun a p => dictSet a p.1 p.2) acc) fs
end

/-! ## check_ldict (foq.py lines 52-76) -/

mutual

/-- The function `check_ldict(ldict)`: asserts `op` and `args` are present,
then for op tag `term` asserts `name`, `state`, `entity_id_list` keys; for
`pred` asserts `name` and `relation_id_list` keys and recurses into
`args['term1']` and `args['term2']` (subscript access: KeyError when those
keys are absent); for `neg` recurses into `args['formula']`; for `conj` and
`disj` recurses into every element of `args['formulas']`.  The fuel models
Python's recursion limit. -/
def check_ldict : Nat → PyVal → Except String Unit
  | 0, _ => .error "RecursionError: maximum recursion depth exceeded"
  | fuel + 1, v => do
    unless pyHasKey v "op" do throw "AssertionError"
    let op ← pyGet v "op"
    unless pyHasKey v "args" do throw "AssertionError"
    let args ← pyGet v "args"
    if opIs op "term" then do
      unless pyHasKey args "name" do throw "AssertionError"
      unless pyHasKey args "state" do throw "AssertionError"
      unless pyHasKey args "entity_id_list" do throw "AssertionError"
    if opIs op "pred" then do
      unless pyHasKey args "name" do throw "AssertionError"
      unless pyHasKey args "relation_id_list" do throw "AssertionError"
      let t1 ← pyGet args "term1"
      check_ldict fuel t1
      let t2 ← pyGet args "term2"
      check_ldict fuel t2
    if opIs op "neg" then do
      unless pyHasKey args "formula" do throw "AssertionError"
      check_ldict fuel (← pyGet args "formula")
    if opIs op "conj" || opIs op "disj" then do
      unless pyHasKey args "formulas" do throw "AssertionError"
      let fsv ← pyGet args "formulas"
      match fsv with
      | .plist fs => check_ldict_seq fuel fs
      | _ => throw "TypeError: value is not iterable"

/-- `for f in args['formulas']: check_ldict(f)`: left to right, the first
exception propagates. -/
def check_ldict_seq : Nat → List PyVal → Except String Unit
  | 0, _ => .error "RecursionError: maximum recursion depth exceeded"
  | _ + 1, [] => pure ()
  | fuel + 1, f :: fs => do
    check_ldict fuel f
    check_ldict_seq fuel fs
end

/-! ## Formula.parse dispatch and the connective parsers
(foq.py lines 165-177, 257-265, 295-303, 334-342) -/

mutual

/-- `Formula.parse(ldict)`: dispatch on the `op` tag; unsupported tags
raise NotImplementedError. -/
def Formula.parseF : Nat → PyVal → Except String Formula
  | 0, _ => .error "RecursionError: maximum recursion depth exceeded"
  | fuel + 1, v => do
    let op ← pyGet v "op"
    if opIs op "pred" then
      (Atomic.parse v).map Formula.atomic
    else if opIs op "neg" then
      Negation.parseF fuel v
    else if opIs op "conj" then
      Conjunction.parseF fuel v
    else if opIs op "disj" then
      Disjunction.parseF fuel v
    else
      throw "NotImplementedError: Unsupported Operator"

/-- `Negation.parse(cls, ldict)`: parses the inner formula and, when its
`op` is `'pred'`, sets `formula.skolem_negation = True` — note: not the
`negated` attribute that `Atomic.__init__` declares. -/
def Negation.parseF : Nat → PyVal → Except String Formula
  | 0, _ => .error "RecursionError: maximum recursion depth exceeded"
  | fuel + 1, v => do
    let op ← pyGet v "op"
    unless opIs op "neg" do throw "AssertionError"
    let args ← pyGet v "args"
    let formula ← Formula.parseF fuel (← pyGet args "formula")
    match formula with
    | .atomic a => pure (.negation (.atomic { a with skolem_negation := some true }))
    | f => pure (.negation f)

/-- `Conjunction.parse(cls, ldict)`. -/
def Conjunction.parseF : Nat → PyVal → Except String Formula
  | 0, _ => .error "RecursionError: maximum recursion depth exceeded"
  | fuel + 1, v => do
    let op ← pyGet v "op"
    unless opIs op "conj" do throw "AssertionError"
    let args ← pyGet v "args"
    let fsv ← pyGet args "formulas"
    match fsv with
    | .plist fs => (parseFormulaList fuel fs).map Formula.conjunction
    | _ => throw "TypeError: value is not iterable"

/-- `Disjunction.parse(cls, ldict)`. -/
def Disjunction.parseF : Nat → PyVal → Except String Formula
  | 0, _ => .error "RecursionError: maximum recursion depth exceeded"
  | fuel + 1, v => do
    let op ← pyGet v "op"
    unless opIs op "disj" do throw "AssertionError"
    let args ← pyGet v "args"
    let fsv ← pyGet args "formulas"
    match fsv with
    | .plist fs => (parseFormulaList fuel fs).map Formula.disjunction
    | _ => throw "TypeError: value is not iterable"

/-- `[Formula.parse(d) for d in formula_dict_list]`: left to right, the
first exception propagates. -/
def parseFormulaList : Nat → List PyVal → Except String FormulaList
  | 0, _ => .error "RecursionError: maximum recursion depth exceeded"
  | _ + 1, [] => pure .nil
  | fuel + 1, v :: vs => do
    let f ← Formula.parseF fuel v
    let fs ← parseFormulaList fuel vs
    pure (.cons f fs)
end

/-! ## EFO1Query (foq.py lines 367-555) -/

/-- `EFO1Query`: the grounded, indexed view of one formula.  Answer-list
entries are opaque Python values (`PyVal`); grounded ids are ints. -/
structure EFO1Query where
  formula : Formula
  easy_answer_list : List PyVal
  hard_answer_list : List PyVal
  noisy_answer_list : List PyVal
  grounding_dict_list : List PyVal
  atomic_dict : List (String × Atomic)
  pred_grounded_relation_id_dict : List (String × List Int)
  term_dict : List (String × Term)
  term_grounded_entity_id_dict : List (String × List Int)
  term_name2atomic_name_list : List (String × List String)

/-- `_init_query` step 2: `for alstr, atomic in atomic_dict.items():
pred_grounded_relation_id_dict[atomic.relation] = []`. -/
def initPredGrounded (adict : List (String × Atomic)) : List (String × List Int) :=
  adict.foldl (fun acc p => dictSet acc p.2.relation []) []

/-- `_init_query` step 3: `for t in atomic.get_terms(): term_dict[t.name] = t`
over all atomics. -/
def initTermDict (adict : List (String × Atomic)) : List (String × Term) :=
  adict.foldl
    (fun acc p => (Atomic.get_terms p.2).foldl (fun acc2 t => dictSet acc2 t.name t) acc) []

/-- `for name, term in term_dict.items(): term_grounded_entity_id_dict[name] = []`. -/
def initTermGrounded (tdict : List (String × Term)) : List (String × List Int) :=
  tdict.foldl (fun acc p => dictSet acc p.1 []) []

/-- `_init_query` step 4: `term_name2atomic_name_list[head.name].append(alstr);
term_name2atomic_name_list[tail.name].append(alstr)` over all atomics
(a `defaultdict(list)`). -/
def initIndex (adict : List (String × Atomic)) : List (String × List String) :=
  adict.foldl
    (fun acc p => ddAppend (ddAppend acc p.2.head.name p.1) p.2.tail.name p.1) []

/-- `EFO1Query.__init__` followed by `_init_query` (foq.py lines 388-427):
index the atomics by `lstr`; initialize one empty relation-id list per
relation name; collect the terms of every atomic into `term_dict`;
initialize one empty entity-id list per term name; build the
term-name-to-atomic-name adjacency. -/
def EFO1Query.mk' (formula : Formula) : EFO1Query :=
  { formula := formula,
    easy_answer_list := [], hard_answer_list := [], noisy_answer_list := [],
    grounding_dict_list := [],
    atomic_dict := formula.get_atomics,
    pred_grounded_relation_id_dict := initPredGrounded formula.get_atomics,
    term_dict := initTermDict formula.get_atomics,
    term_grounded_entity_id_dict := initTermGrounded (initTermDict formula.get_atomics),
    term_name2atomic_name_list := initIndex formula.get_atomics }

/-- `append_relation_and_symbols(self, append_dict)` (foq.py lines
429-434): for each key, if it is in `term_dict` append the value to that
term's grounded-entity-id list, else append it to the relation's
grounded-id list.  Both inner dicts are plain dicts, so a key absent from
the chosen dict raises KeyError; the mutations made for earlier keys
persist (second component: the pending exception, if any). -/
def append_relation_and_symbols (q : EFO1Query) :
    List (String × Int) → EFO1Query × Option String
  | [] => (q, none)
  | (k, v) :: rest =>
    if (dictGet q.term_dict k).isSome then
      match dictGet q.term_grounded_entity_id_dict k with
      | some l =>
        append_relation_and_symbols
          { q with term_grounded_entity_id_dict :=
              dictSet q.term_grounded_entity_id_dict k (l ++ [v]) } rest
      | none => (q, some ("KeyError: " ++ k))
    else
      match dictGet q.pred_grounded_relation_id_dict k with
      | some l =>
        append_relation_and_symbols
          { q with pred_grounded_relation_id_dict :=
              dictSet q.pred_grounded_relation_id_dict k (l ++ [v]) } rest
      | none => (q, some ("KeyError: " ++ k))

/-- `append_qa_instances(self, append_dict, easy_answers=[], hard_answers=[],
noisy_answer=[])` (foq.py lines 436-444): run
`append_relation_and_symbols`, then append one entry to each of the three
answer lists.  When the first step raises, its partial mutations persist
and the answer lists are not touched. -/
def append_qa_instances (q : EFO1Query) (append_dict : List (String × Int))
    (easy_answers hard_answers noisy_answer : PyVal) : EFO1Query × Option String :=
  match append_relation_and_symbols q append_dict with
  | (q', some e) => (q', some e)
  | (q', none) =>
    ({ q' with easy_answer_list := q'.easy_answer_list ++ [easy_answers],
               hard_answer_list := q'.hard_answer_list ++ [hard_answers],
               noisy_answer_list := q'.noisy_answer_list ++ [noisy_answer] }, none)

/-- `symbol_dict` (foq.py lines 476-480): the SYMBOL-state entries of
`term_dict`, in order. -/
def symbol_dict (q : EFO1Query) : List (String × Term) :=
  q.term_dict.filter (fun p => p.2.state = Term.SYMBOL)

/-- The loop `for k in self.symbol_dict: assert num_instances ==
len(self.get_term_grounded_entity_id_list(k))` of `num_instances`; the
getter subscripts a plain dict (KeyError when the key is absent). -/
def checkSymbolLens (q : EFO1Query) (n : Nat) : List (String × Term) → Except String Unit
  | [] => pure ()
  | (k, _) :: rest =>
    match dictGet q.term_grounded_entity_id_dict k with
    | none => .error ("KeyError: " ++ k)
    | some l => if n = l.length then checkSymbolLens q n rest else .error "AssertionError"

/-- The loop `for k in self.atomic_dict: pred_name = ...relation; assert
num_instances == len(self.get_pred_grounded_relation_id_list(pred_name))`
of `num_instances`. -/
def checkPredLens (q : EFO1Query) (n : Nat) : List (String × Atomic) → Except String Unit
  | [] => pure ()
  | (_, a) :: rest =>
    match dictGet q.pred_grounded_relation_id_dict a.relation with
    | none => .error ("KeyError: " ++ a.relation)
    | some l => if n = l.length then checkPredLens q n rest else .error "AssertionError"

/-- `num_instances` (foq.py lines 495-508): asserts
`len(easy_answer_list) == len(hard_answer_list)`, that every SYMBOL term's
grounded-entity-id list and every atomic's relation's grounded-id list
have this same length, then returns `len(easy_answer_list)`.  The
`noisy_answer_list` is not examined. -/
def num_instances (q : EFO1Query) : Except String Nat :=
  let n := q.easy_answer_list.length
  if n = q.hard_answer_list.length then
    match checkSymbolLens q n (symbol_dict q) with
    | .error e => .error e
    | .ok _ =>
      match checkPredLens q n q.atomic_dict with
      | .error e => .error e
      | .ok _ => .ok q.easy_answer_list.length
  else .error "AssertionError"

/-! ## get_bfs_variable_ordering (foq.py lines 529-555) -/

/-- The mutable state of the BFS loop: the `next_var_name_level` list, the
`visited_vars` set (membership-only, so a list suffices), the
`term_name2atomic_name_list` defaultdict (mutated by its lookups), and the
pending exception, if any (an exception aborts the remaining iterations
but earlier mutations persist). -/
structure BfsSt where
  next : List (String × Nat)
  visited : List String
  index : List (String × List String)
  err : Option String

/-- `defaultdict(list)` read access `d[k]`: returns the stored list, or
inserts and returns `[]` when the key is absent (a mutating read). -/
def ddGet (d : List (String × List String)) (k : String) :
    List String × List (String × List String) :=
  match dictGet d k with
  | some l => (l, d)
  | none => ([], d ++ [(k, [])])

/-- The body `for term in atomic.get_terms(): ...`: skip SYMBOL terms;
skip visited names; otherwise mark visited and append `(name, order+1)` to
`next_var_name_level`. -/
def processTerm (order : Nat) (t : Term) (st : BfsSt) : BfsSt :=
  if t.state = Term.SYMBOL then st
  else if t.name ∈ st.visited then st
  else { st with visited := t.name :: st.visited,
                 next := st.next ++ [(t.name, order + 1)] }

/-- The body `atomic = self.atomic_dict[atomic_name]` (plain dict:
KeyError when absent) followed by the term loop. -/
def processAtomic (adict : List (String × Atomic)) (order : Nat)
    (st : BfsSt) (aname : String) : BfsSt :=
  if st.err.isSome then st
  else
    match dictGet adict aname with
    | none => { st with err := some ("KeyError: " ++ aname) }
    | some a => processTerm order a.tail (processTerm order a.head st)

/-- One iteration of `for var_name, order in var_name_levels[-1]`: reset
`next_var_name_level = []` (inside this per-variable loop in the source),
read the defaultdict adjacency (which may insert an empty entry), and
process each incident atomic. -/
def processVar (adict : List (String × Atomic)) (st : BfsSt)
    (v : String × Nat) : BfsSt :=
  if st.err.isSome then st
  else
    let st1 := { st with next := [] }
    let (adj, index') := ddGet st1.index v.1
    adj.foldl (processAtomic adict v.2) { st1 with index := index' }

/-- The full `for var_name, order in var_name_levels[-1]` loop. -/
def processLevel (adict : List (String × Atomic))
    (level : List (String × Nat)) (st : BfsSt) : BfsSt :=
  level.foldl (processVar adict) st

/-- The `while True:` loop: process the last level; an exception
propagates (with all mutations kept); an empty `next_var_name_level`
breaks; otherwise the level is appended and the loop continues.  `none`
means the fuel ran out (the caller supplies a fuel proved sufficient). -/
def bfsLoop (adict : List (String × Atomic)) :
    Nat → List (List (String × Nat)) → BfsSt →
    Option (List (List (String × Nat)) × BfsSt)
  | 0, _, _ => none
  | fuel + 1, levels, st =>
    let st' := processLevel adict (levels.getLastD []) st
    if st'.err.isSome then some (levels, st')
    else if st'.next = [] then some (levels, st')
    else bfsLoop adict fuel (levels ++ [st'.next]) st'

/-- All names that can ever be added to a level: the head and tail names
of the atomics stored in `atomic_dict`.  Used only to size the fuel. -/
def bfsTermUniverse (adict : List (String × Atomic)) : List String :=
  adict.foldr (fun p acc => p.2.head.name :: p.2.tail.name :: acc) []

/-- `get_bfs_variable_ordering(self, source_var_name='f')`:
`visited_vars = set(source_var_name)` seeds the visited set with the
individual characters of the source name (a Python `set` of a string);
level 0 is `[(source_var_name, 0)]`.  Returns the levels (or the pending
exception) together with the query, whose `term_name2atomic_name_list`
holds any defaultdict insertions made by the traversal.  The fuel bound
`|bfsTermUniverse| + 1` is proved sufficient below, so the `none` case is
unreachable. -/
def get_bfs_variable_ordering (q : EFO1Query) (source_var_name : String) :
    Option (Except String (List (List (String × Nat))) × EFO1Query) :=
  let fuel := (bfsTermUniverse q.atomic_dict).length + 1
  let st0 : BfsSt :=
    { next := [],
      visited := source_var_name.data.map (fun c => String.mk [c]),
      index := q.term_name2atomic_name_list,
      err := none }
  match bfsLoop q.atomic_dict fuel [[(source_var_name, 0)]] st0 with
  | none => none
  | some (levels, st) =>
    some (match st.err with
          | some e => .error e
          | none => .ok levels,
          { q with term_name2atomic_name_list := st.index })

/-! ## Lemmas about the grounding append protocol -/

/-- The condition under which `append_relation_and_symbols` processes one
key without raising: either the key is in `term_dict` and has a
grounded-entity-id list, or it is absent from `term_dict` and has a
grounded-relation-id list.  These are exactly the branch conditions of the
source loop. -/
def appendKeyOk (q : EFO1Query) (k : String) : Prop :=
  ((dictGet q.term_dict k).isSome ∧ (dictGet q.term_grounded_entity_id_dict k).isSome) ∨
  (¬(dictGet q.term_dict k).isSome ∧ (dictGet q.pred_grounded_relation_id_dict k).isSome)

instance (q : EFO1Query) (k : String) : Decidable (appendKeyOk q k) := by
  unfold appendKeyOk
  infer_instance

/-- Length of the grounded-entity-id list currently stored for a term
name (0 when the entry is absent). -/
def tgLen (q : EFO1Query) (k : String) : Nat :=
  ((dictGet q.term_grounded_entity_id_dict k).getD []).length

/-- Length of the grounded-relation-id list currently stored for a
relation name (0 when the entry is absent). -/
def pgLen (q : EFO1Query) (k : String) : Nat :=
  ((dictGet q.pred_grounded_relation_id_dict k).getD []).length

/-! ## The instance-count invariant -/

/-- Structural well-formedness that `_init_query` establishes: the
grounded-entity dict covers exactly the term names, and every atomic's
relation has a grounded-relation-id entry. -/
def QueryWF (q0 : EFO1Query) : Prop :=
  (∀ k, k ∈ keysOf q0.term_grounded_entity_id_dict ↔ k ∈ keysOf q0.term_dict) ∧
  (∀ p ∈ q0.atomic_dict, p.2.relation ∈ keysOf q0.pred_grounded_relation_id_dict)

/-- The parts of the query state that grounding appends never change. -/
def StructEq (q0 q : EFO1Query) : Prop :=
  q.term_dict = q0.term_dict ∧ q.atomic_dict = q0.atomic_dict ∧
  keysOf q.term_grounded_entity_id_dict = keysOf q0.term_grounded_entity_id_dict ∧
  keysOf q.pred_grounded_relation_id_dict = keysOf q0.pred_grounded_relation_id_dict

/-- After `n` valid grounding instances: the three answer lists have
length `n`, every SYMBOL term's entity-id list has length `n`, and every
grounded-relation-id list has length `n`. -/
def InvC5 (q0 q : EFO1Query) (n : Nat) : Prop :=
  StructEq q0 q ∧
  q.easy_answer_list.length = n ∧
  q.hard_answer_list.length = n ∧
  q.noisy_answer_list.length = n ∧
  (∀ p ∈ symbol_dict q0,
     ∃ g, dictGet q.term_grounded_entity_id_dict p.1 = some g ∧ g.length = n) ∧
  (∀ r ∈ keysOf q0.pred_grounded_relation_id_dict,
     ∃ g, dictGet q.pred_grounded_relation_id_dict r = some g ∧ g.length = n)

/-- A valid `append_dict` for one instance: duplicate-free keys, exactly
the SYMBOL-term names and the relation names (one entity id per SYMBOL
term, one relation id per relation), and no relation name shadowed by a
term name (a dict key cannot deliver a relation id when a term of the
same name exists, by the term-first precedence). -/
def ValidAppendDict (q0 : EFO1Query) (d : List (String × Int)) : Prop :=
  (keysOf d).Nodup ∧
  (∀ k ∈ keysOf d,
     k ∈ keysOf (symbol_dict q0) ∨ k ∈ keysOf q0.pred_grounded_relation_id_dict) ∧
  (∀ p ∈ symbol_dict q0, p.1 ∈ keysOf d) ∧
  (∀ r ∈ keysOf q0.pred_grounded_relation_id_dict, r ∈ keysOf d) ∧
  (∀ r ∈ keysOf q0.pred_grounded_relation_id_dict, r ∉ keysOf q0.term_dict)

instance (q0 : EFO1Query) (d : List (String × Int)) : Decidable (ValidAppendDict q0 d) := by
  unfold ValidAppendDict
  infer_instance

/-- A sequence of `append_qa_instances` calls, one per element, stopping
at the first raised exception (as a caller script would). -/
def applyInstances (q : EFO1Query) :
    List (List (String × Int) × PyVal × PyVal × PyVal) → EFO1Query × Option String
  | [] => (q, none)
  | i :: rest =>
    match append_qa_instances q i.1 i.2.1 i.2.2.1 i.2.2.2 with
    | (q', none) => applyInstances q' rest
    | (q', some err) => (q', some err)

/-- The invariant carried across one level of the traversal: `v0` is the
visited set at the start of the level; every collected next-level entry
is a term name of some indexed atomic, was unvisited at level start, and
is visited now. -/
def BfsInv (adict : List (String × Atomic)) (v0 : List String) (st : BfsSt) : Prop :=
  (∀ x ∈ v0, x ∈ st.visited) ∧
  (∀ e ∈ st.next,
     e.1 ∈ bfsTermUniverse adict ∧ e.1 ∉ v0 ∧ e.1 ∈ st.visited)

/-- The adjacency-index closure `_init_query` establishes: every indexed
atomic's two term names are keys of the index. -/
def IndexClosed (adict : List (String × Atomic))
    (index0 : List (String × List String)) : Prop :=
  ∀ p ∈ adict, p.2.head.name ∈ keysOf index0 ∧ p.2.tail.name ∈ keysOf index0

/-- Every collected next-level name is a key of the index (so its later
defaultdict lookup inserts nothing). -/
def KeysInv (index0 : List (String × List String)) (st : BfsSt) : Prop :=
  ∀ e ∈ st.next, e.1 ∈ keysOf index0

/-! ## Per-instance consistency (for the failed-append claim) -/

/-- The lengths of the per-instance lists: the three answer lists, each
SYMBOL term's grounded-entity-id list, each grounded-relation-id list. -/
def perInstanceLens (q : EFO1Query) : List Nat :=
  q.easy_answer_list.length :: q.hard_answer_list.length ::
    q.noisy_answer_list.length ::
    ((symbol_dict q).map
        (fun p => ((dictGet q.term_grounded_entity_id_dict p.1).getD []).length)
      ++ q.pred_grounded_relation_id_dict.map (fun p => p.2.length))

/-- All per-instance lists have one common length. -/
def perInstanceConsistent (q : EFO1Query) : Prop :=
  ∀ n ∈ perInstanceLens q, n = q.easy_answer_list.length

instance (q : EFO1Query) : Decidable (perInstanceConsistent q) := by
  unfold perInstanceConsistent
  infer_instance

/-! ## Concrete instances used by the claims -/

/-- A SYMBOL term `a` with its serialization attribute set. -/
def termA : Term := { state := Term.SYMBOL, name := "a", entity_id_list := some [3] }

/-- An existential term `e` with its serialization attribute set. -/
def termE : Term := { state := Term.EXISTENTIAL, name := "e", entity_id_list := some [] }

/-- A programmatically built atomic `r(a,e)` with the attributes its
serialization needs (`name`, `relation_id_list`, and the terms'
`entity_id_list`) set. -/
def atomicRAE : Atomic :=
  { relation := "r", head := termA, tail := termE, negated := false,
    name := some "r", relation_id_list := some [0], skolem_negation := none }

/-- The wire dict `to_ldict` produces for `atomicRAE` — also exactly the
Atomic layout of the documented wire format (op, args.name,
args.relation_id_list, args.head, args.tail). -/
def wireRAE : PyVal :=
  .pdict [("op", .pstr "pred"),
          ("args", .pdict
            [("name", .pstr "r"),
             ("relation_id_list", .plist [.pint 0]),
             ("head", .pdict [("op", .pstr "term"),
                              ("args", .pdict [("state", .pint 4),
                                               ("name", .pstr "a"),
                                               ("entity_id_list", .plist [.pint 3])])]),
             ("tail", .pdict [("op", .pstr "term"),
                              ("args", .pdict [("state", .pint 1),
                                               ("name", .pstr "e"),
                                               ("entity_id_list", .plist [])])])])]

example : Atomic.to_ldict atomicRAE = .ok wireRAE := rfl

example : Formula.parseF 32 wireRAE
    = .error "TypeError: __init__ got an unexpected keyword argument name" := rfl

example : check_ldict 32 wireRAE = .error "KeyError: term1" := rfl

/-- The wire dict for a Negation wrapping `wireRAE`. -/
def wireNegRAE : PyVal := .pdict [("op", .pstr "neg"), ("args", .pdict [("formula", wireRAE)])]

/-- Terms of the four-atomic query used for the BFS claims. -/
def termF : Term := Term.mk' Term.FREE "f"

def termE1 : Term := Term.mk' Term.EXISTENTIAL "e1"

def termE2 : Term := Term.mk' Term.EXISTENTIAL "e2"

def termE3 : Term := Term.mk' Term.EXISTENTIAL "e3"

def termE4 : Term := Term.mk' Term.EXISTENTIAL "e4"

/-- `r1(f,e1) & r2(f,e2) & r3(e1,e3) & r4(e2,e4)`. -/
def formulaBfs : Formula :=
  .conjunction
    (.cons (.atomic ( Atomic.mk' "r1" termF termE1))
      (.cons (.atomic ( Atomic.mk' "r2" termF termE2))
        (.cons (.atomic ( Atomic.mk' "r3" termE1 termE3))
          (.cons (.atomic ( Atomic.mk' "r4" termE2 termE4)) .nil))))

/-- The query over `formulaBfs`. -/
def queryBfs : EFO1Query := EFO1Query.mk' formulaBfs

/-- A SYMBOL term `s1`. -/
def termS1 : Term := Term.mk' Term.SYMBOL "s1"

/-- `r1(s1,f) & r2(f,e1)`: one SYMBOL term, one free variable, one
existential variable, two relations. -/
def formulaQa : Formula :=
  .conjunction (.cons (.atomic ( Atomic.mk' "r1" termS1 termF))
    (.cons (.atomic ( Atomic.mk' "r2" termF termE1)) .nil))

/-- Two grounding instances for `formulaQa`: one entity id for the SYMBOL
term, one relation id per relation, plus answer sets. -/
def instsQa : List (List (String × Int) × PyVal × PyVal × PyVal) :=
  [([("s1", 10), ("r1", 3), ("r2", 4)], .plist [.pint 7], .plist [], .plist []),
   ([("s1", 11), ("r1", 5), ("r2", 6)], .plist [], .plist [.pint 8], .plist [])]

/-- The fresh `formulaQa` query with its (unchecked) noisy_answer_list
externally tampered to length 1 while everything else has length 0. -/
def queryTamperedNoisy : EFO1Query :=
  { EFO1Query.mk' formulaQa with noisy_answer_list := [.plist []] }

/-- A SYMBOL term whose name `x` is also used as a relation name. -/
def termX : Term := Term.mk' Term.SYMBOL "x"

/-- `x(x,f) & r2(f,e1)`: the relation name `x` collides with the term
name `x`, exercising the term-first precedence. -/
def formulaShadow : Formula :=
  .conjunction (.cons (.atomic ( Atomic.mk' "x" termX termF))
    (.cons (.atomic ( Atomic.mk' "r2" termF termE1)) .nil))

/-- The query over `formulaShadow`. -/
def queryShadow : EFO1Query := EFO1Query.mk' formulaShadow

/-- An append dict hitting both branches: `x` (term and relation name)
and `r2` (relation name only). -/
def dShadow : List (String × Int) := [("x", 5), ("r2", 9)]

/-! # Theorems -/

/-! ## Dictionary lemmas -/

theorem dictGet_dictSet_self {α : Type} (d : List (String × α)) (k : String) (v : α) :
    dictGet (dictSet d k v) k = some v := by
  induction d with
  | nil => simp [dictSet, dictGet]
  | cons p rest ih =>
    by_cases h : p.1 = k
    · simp [dictSet, dictGet, h]
    · simp [dictSet, dictGet, h, ih]

theorem dictGet_dictSet_ne {α : Type} (d : List (String × α)) (k k' : String) (v : α)
    (h : k' ≠ k) : dictGet (dictSet d k v) k' = dictGet d k' := by
  induction d with
  | nil => simp [dictSet, dictGet, Ne.symm h]
  | cons p rest ih =>
    by_cases hp : p.1 = k
    · have hpk' : p.1 ≠ k' := by rw [hp]; exact Ne.symm h
      simp [dictSet, dictGet, hp, hpk', Ne.symm h]
    · simp [dictSet, dictGet, hp, ih]

theorem keysOf_dictSet_of_isSome {α : Type} (d : List (String × α)) (k : String) (v : α)
    (h : (dictGet d k).isSome) : keysOf (dictSet d k v) = keysOf d := by
  induction d with
  | nil => simp [dictGet] at h
  | cons p rest ih =>
    by_cases hp : p.1 = k
    · simp [dictSet, hp, keysOf]
    · simp only [dictGet, hp, if_false] at h
      simp [dictSet, hp, keysOf] at ih ⊢
      exact ih h

theorem dictGet_isSome_iff_mem_keysOf {α : Type} (d : List (String × α)) (k : String) :
    (dictGet d k).isSome ↔ k ∈ keysOf d := by
  induction d with
  | nil => simp [dictGet, keysOf]
  | cons p rest ih =>
    by_cases hp : p.1 = k
    · simp [dictGet, hp, keysOf]
    · simp [dictGet, hp, keysOf, ih, Ne.symm hp]

theorem dictGet_some_mem {α : Type} (d : List (String × α)) (k : String) (v : α)
    (h : dictGet d k = some v) : (k, v) ∈ d := by
  induction d with
  | nil => simp [dictGet] at h
  | cons p rest ih =>
    by_cases hp : p.1 = k
    · simp only [dictGet, hp, if_true] at h
      obtain ⟨pk, pv⟩ := p
      obtain rfl : pk = k := hp
      obtain rfl : pv = v := by injection h
      exact List.mem_cons_self _ _
    · simp only [dictGet, hp, if_false] at h
      exact List.mem_cons_of_mem _ (ih h)

theorem mem_keysOf_exists_dictGet {α : Type} (d : List (String × α)) (k : String)
    (h : k ∈ keysOf d) : ∃ v, dictGet d k = some v := by
  have := (dictGet_isSome_iff_mem_keysOf d k).2 h
  exact Option.isSome_iff_exists.1 this

theorem mem_keysOf_ddAppend_self {β : Type} (d : List (String × List β)) (k : String) (v : β) :
    k ∈ keysOf (ddAppend d k v) := by
  induction d with
  | nil => simp [ddAppend, keysOf]
  | cons p rest ih =>
    by_cases hp : p.1 = k
    · simp [ddAppend, hp, keysOf]
    · simp [ddAppend, hp, keysOf] at ih ⊢
      exact Or.inr ih

theorem mem_keysOf_ddAppend_of_mem {β : Type} (d : List (String × List β))
    (k k' : String) (v : β) (h : k' ∈ keysOf d) : k' ∈ keysOf (ddAppend d k v) := by
  induction d with
  | nil => simp [keysOf] at h
  | cons p rest ih =>
    by_cases hp : p.1 = k
    · simpa [ddAppend, hp, keysOf] using h
    · simp [keysOf] at h
      rcases h with h | h
      · simp [ddAppend, hp, keysOf, h]
      · simp [ddAppend, hp, keysOf]
        exact Or.inr (by simpa [keysOf] using ih (by simpa [keysOf] using h))

/-- Folding `d[k] = c` over a list of keys: every folded key maps to `c`,
other keys are untouched. -/
theorem dictGet_foldl_dictSet_const {α : Type} (ks : List String) (c : α)
    (acc : List (String × α)) (k : String) :
    dictGet (ks.foldl (fun a k' => dictSet a k' c) acc) k
      = if k ∈ ks then some c else dictGet acc k := by
  induction ks generalizing acc with
  | nil => simp
  | cons k0 rest ih =>
    by_cases hk : k ∈ rest
    · simp [List.foldl_cons, ih, hk, List.mem_cons]
    · by_cases hk0 : k = k0
      · subst hk0
        simp [List.foldl_cons, ih, hk, dictGet_dictSet_self]
      · simp [List.foldl_cons, ih, hk, hk0, dictGet_dictSet_ne _ _ _ _ hk0]

theorem initTermGrounded_get (tdict : List (String × Term)) (k : String) :
    dictGet (initTermGrounded tdict) k
      = if k ∈ keysOf tdict then some [] else none := by
  have h1 : initTermGrounded tdict
      = (tdict.map (·.1)).foldl (fun a k' => dictSet a k' []) [] := by
    rw [List.foldl_map]
    rfl
  rw [h1, dictGet_foldl_dictSet_const]
  simp [keysOf, dictGet]

theorem initPredGrounded_get (adict : List (String × Atomic)) (k : String) :
    dictGet (initPredGrounded adict) k
      = if k ∈ adict.map (·.2.relation) then some [] else none := by
  have h1 : initPredGrounded adict
      = (adict.map (·.2.relation)).foldl (fun a k' => dictSet a k' []) [] := by
    rw [List.foldl_map]
    rfl
  rw [h1, dictGet_foldl_dictSet_const]
  simp [dictGet]

/-- Keys already present survive the adjacency-building fold. -/
theorem mem_keysOf_initIndex_fold (l : List (String × Atomic))
    (acc : List (String × List String)) (k : String) (h : k ∈ keysOf acc) :
    k ∈ keysOf (l.foldl
      (fun a p => ddAppend (ddAppend a p.2.head.name p.1) p.2.tail.name p.1) acc) := by
  induction l generalizing acc with
  | nil => simpa using h
  | cons p rest ih =>
    simp only [List.foldl_cons]
    exact ih _ (mem_keysOf_ddAppend_of_mem _ _ _ _ (mem_keysOf_ddAppend_of_mem _ _ _ _ h))

/-- Every atomic's head and tail names end up as keys of the adjacency
index built by `_init_query`. -/
theorem initIndex_mem_keysOf (adict : List (String × Atomic)) (p : String × Atomic)
    (hp : p ∈ adict) :
    p.2.head.name ∈ keysOf (initIndex adict) ∧ p.2.tail.name ∈ keysOf (initIndex adict) := by
  unfold initIndex
  have main : ∀ (l : List (String × Atomic)) (acc : List (String × List String)),
      p ∈ l →
      p.2.head.name ∈ keysOf (l.foldl
        (fun a q => ddAppend (ddAppend a q.2.head.name q.1) q.2.tail.name q.1) acc) ∧
      p.2.tail.name ∈ keysOf (l.foldl
        (fun a q => ddAppend (ddAppend a q.2.head.name q.1) q.2.tail.name q.1) acc) := by
    intro l
    induction l with
    | nil => intro acc h; simp at h
    | cons q rest ih =>
      intro acc h
      rcases List.mem_cons.1 h with h | h
      · subst h
        simp only [List.foldl_cons]
        constructor
        · exact mem_keysOf_initIndex_fold _ _ _
            (mem_keysOf_ddAppend_of_mem _ _ _ _ (mem_keysOf_ddAppend_self acc p.2.head.name p.1))
        · exact mem_keysOf_initIndex_fold _ _ _
            (mem_keysOf_ddAppend_self (ddAppend acc p.2.head.name p.1) p.2.tail.name p.1)
      · simp only [List.foldl_cons]
        exact ih _ h
  exact main adict [] hp

theorem dictGet_dictSet_isSome_of {α : Type} (d : List (String × α)) (k k' : String) (v : α)
    (h : (dictGet d k').isSome) : (dictGet (dictSet d k v) k').isSome := by
  by_cases hk : k' = k
  · subst hk
    simp [dictGet_dictSet_self]
  · rw [dictGet_dictSet_ne _ _ _ _ hk]
    exact h

theorem appendKeyOk_tg_set (q : EFO1Query) (k0 : String) (w : List Int) (k : String)
    (h : appendKeyOk q k) :
    appendKeyOk
      { q with term_grounded_entity_id_dict := dictSet q.term_grounded_entity_id_dict k0 w }
      k := by
  rcases h with ⟨h1, h2⟩ | ⟨h1, h2⟩
  · exact Or.inl ⟨h1, dictGet_dictSet_isSome_of _ _ _ _ h2⟩
  · exact Or.inr ⟨h1, h2⟩

theorem appendKeyOk_pg_set (q : EFO1Query) (k0 : String) (w : List Int) (k : String)
    (h : appendKeyOk q k) :
    appendKeyOk
      { q with pred_grounded_relation_id_dict := dictSet q.pred_grounded_relation_id_dict k0 w }
      k := by
  rcases h with ⟨h1, h2⟩ | ⟨h1, h2⟩
  · exact Or.inl ⟨h1, h2⟩
  · exact Or.inr ⟨h1, dictGet_dictSet_isSome_of _ _ _ _ h2⟩

/-- `append_relation_and_symbols` touches only the two grounded-id dicts:
every other field of the query is returned unchanged (even when a key
raises mid-way). -/
theorem append_rs_frame (d : List (String × Int)) (q : EFO1Query) :
    (append_relation_and_symbols q d).1.formula = q.formula ∧
    (append_relation_and_symbols q d).1.easy_answer_list = q.easy_answer_list ∧
    (append_relation_and_symbols q d).1.hard_answer_list = q.hard_answer_list ∧
    (append_relation_and_symbols q d).1.noisy_answer_list = q.noisy_answer_list ∧
    (append_relation_and_symbols q d).1.grounding_dict_list = q.grounding_dict_list ∧
    (append_relation_and_symbols q d).1.atomic_dict = q.atomic_dict ∧
    (append_relation_and_symbols q d).1.term_dict = q.term_dict ∧
    (append_relation_and_symbols q d).1.term_name2atomic_name_list
      = q.term_name2atomic_name_list := by
  induction d generalizing q with
  | nil => simp [append_relation_and_symbols]
  | cons p rest ih =>
    obtain ⟨k, v⟩ := p
    by_cases ht : (dictGet q.term_dict k).isSome
    · cases ho : dictGet q.term_grounded_entity_id_dict k with
      | none => simp [append_relation_and_symbols, ht, ho]
      | some l =>
        simp only [append_relation_and_symbols, ht, ho, if_true]
        exact ih _
    · cases ho : dictGet q.pred_grounded_relation_id_dict k with
      | none => simp [append_relation_and_symbols, ht, ho]
      | some l =>
        simp only [append_relation_and_symbols, ht, ho, if_false]
        exact ih _

/-- The key sets of the two grounded-id dicts are preserved (each step
overwrites an existing key in place). -/
theorem append_rs_keys (d : List (String × Int)) (q : EFO1Query) :
    keysOf (append_relation_and_symbols q d).1.term_grounded_entity_id_dict
      = keysOf q.term_grounded_entity_id_dict ∧
    keysOf (append_relation_and_symbols q d).1.pred_grounded_relation_id_dict
      = keysOf q.pred_grounded_relation_id_dict := by
  induction d generalizing q with
  | nil => simp [append_relation_and_symbols]
  | cons p rest ih =>
    obtain ⟨k, v⟩ := p
    by_cases ht : (dictGet q.term_dict k).isSome
    · cases ho : dictGet q.term_grounded_entity_id_dict k with
      | none => simp [append_relation_and_symbols, ht, ho]
      | some l =>
        simp only [append_relation_and_symbols, ht, ho, if_true]
        refine ⟨(ih _).1.trans ?_, (ih _).2⟩
        exact keysOf_dictSet_of_isSome _ _ _ (by simp [ho])
    · cases ho : dictGet q.pred_grounded_relation_id_dict k with
      | none => simp [append_relation_and_symbols, ht, ho]
      | some l =>
        simp only [append_relation_and_symbols, ht, ho, if_false]
        refine ⟨(ih _).1, (ih _).2.trans ?_⟩
        exact keysOf_dictSet_of_isSome _ _ _ (by simp [ho])

/-- When every key satisfies its branch condition, the loop completes
without raising. -/
theorem append_rs_ok (d : List (String × Int)) (q : EFO1Query)
    (hok : ∀ p ∈ d, appendKeyOk q p.1) :
    (append_relation_and_symbols q d).2 = none := by
  induction d generalizing q with
  | nil => simp [append_relation_and_symbols]
  | cons p rest ih =>
    obtain ⟨k, v⟩ := p
    have hk := hok (k, v) (List.mem_cons_self _ _)
    rcases hk with ⟨ht, hg⟩ | ⟨ht, hg⟩
    · obtain ⟨l, ho⟩ := Option.isSome_iff_exists.1 hg
      simp only [append_relation_and_symbols, ht, ho, if_true]
      exact ih _ (fun p hp => appendKeyOk_tg_set _ _ _ _ (hok p (List.mem_cons_of_mem _ hp)))
    · obtain ⟨l, ho⟩ := Option.isSome_iff_exists.1 hg
      have ht' : (dictGet q.term_dict k).isSome = false := by
        simpa using ht
      simp only [append_relation_and_symbols, ht', ho, Bool.false_eq_true, if_false]
      exact ih _ (fun p hp => appendKeyOk_pg_set _ _ _ _ (hok p (List.mem_cons_of_mem _ hp)))

theorem not_mem_keysOf_dictGet {α : Type} (d : List (String × α)) (k : String)
    (h : k ∉ keysOf d) : dictGet d k = none := by
  cases hg : dictGet d k with
  | none => rfl
  | some v =>
    exact absurd ((dictGet_isSome_iff_mem_keysOf d k).1 (by simp [hg])) h

/-- Per-key effect of a completed `append_relation_and_symbols` call with
duplicate-free keys: a key present in `append_dict` that names a term gets
its value appended to the term's entity-id list and leaves the relation
dict untouched at that key; a present key not naming a term gets its value
appended to the relation's id list and leaves the term dict untouched; an
absent key leaves both untouched. -/
theorem append_rs_get (d : List (String × Int)) (q : EFO1Query)
    (hnd : (keysOf d).Nodup) (hok : ∀ p ∈ d, appendKeyOk q p.1) (k : String) :
    (∀ v, dictGet d k = some v → (dictGet q.term_dict k).isSome →
       dictGet (append_relation_and_symbols q d).1.term_grounded_entity_id_dict k
         = (dictGet q.term_grounded_entity_id_dict k).map (· ++ [v]) ∧
       dictGet (append_relation_and_symbols q d).1.pred_grounded_relation_id_dict k
         = dictGet q.pred_grounded_relation_id_dict k) ∧
    (∀ v, dictGet d k = some v → ¬(dictGet q.term_dict k).isSome →
       dictGet (append_relation_and_symbols q d).1.pred_grounded_relation_id_dict k
         = (dictGet q.pred_grounded_relation_id_dict k).map (· ++ [v]) ∧
       dictGet (append_relation_and_symbols q d).1.term_grounded_entity_id_dict k
         = dictGet q.term_grounded_entity_id_dict k) ∧
    (dictGet d k = none →
       dictGet (append_relation_and_symbols q d).1.term_grounded_entity_id_dict k
         = dictGet q.term_grounded_entity_id_dict k ∧
       dictGet (append_relation_and_symbols q d).1.pred_grounded_relation_id_dict k
         = dictGet q.pred_grounded_relation_id_dict k) := by
  induction d generalizing q with
  | nil =>
    refine ⟨?_, ?_, ?_⟩
    · intro v hv
      simp [dictGet] at hv
    · intro v hv
      simp [dictGet] at hv
    · intro _
      simp [append_relation_and_symbols]
  | cons p rest ih =>
    obtain ⟨k0, v0⟩ := p
    have hk0 := hok (k0, v0) (List.mem_cons_self _ _)
    have hndr : (keysOf rest).Nodup := by
      simpa [keysOf] using hnd.of_cons
    have hk0nr : k0 ∉ keysOf rest := by
      have h1 : (k0 :: keysOf rest).Nodup := by simpa [keysOf] using hnd
      exact (List.nodup_cons.1 h1).1
    rcases hk0 with ⟨ht, hg⟩ | ⟨ht, hg⟩
    · -- term branch at the head key
      obtain ⟨l, ho⟩ := Option.isSome_iff_exists.1 hg
      have hstep : append_relation_and_symbols q ((k0, v0) :: rest)
          = append_relation_and_symbols
              { q with term_grounded_entity_id_dict :=
                  dictSet q.term_grounded_entity_id_dict k0 (l ++ [v0]) } rest := by
        simp [append_relation_and_symbols, ht, ho]
      have hokr : ∀ p ∈ rest,
          appendKeyOk
            { q with term_grounded_entity_id_dict :=
                dictSet q.term_grounded_entity_id_dict k0 (l ++ [v0]) } p.1 :=
        fun p hp => appendKeyOk_tg_set _ _ _ _ (hok p (List.mem_cons_of_mem _ hp))
      have ihr := ih _ hndr hokr
      by_cases hkk : k0 = k
      · subst hkk
        have hrest : dictGet rest k0 = none := not_mem_keysOf_dictGet _ _ hk0nr
        refine ⟨?_, ?_, ?_⟩
        · intro v hv _
          have hv0 : v = v0 := by
            simp [dictGet] at hv
            omega
          subst hv0
          rw [hstep]
          refine ⟨((ihr.2.2 hrest).1).trans ?_, ((ihr.2.2 hrest).2).trans rfl⟩
          simp [dictGet_dictSet_self, ho]
        · intro v hv hnt
          exact absurd ht hnt
        · intro hnone
          simp [dictGet] at hnone
      · refine ⟨?_, ?_, ?_⟩
        · intro v hv htk
          have hv' : dictGet rest k = some v := by
            simpa [dictGet, hkk] using hv
          rw [hstep]
          have := ihr.1 v hv' (by simpa using htk)
          refine ⟨this.1.trans ?_, this.2⟩
          rw [dictGet_dictSet_ne _ _ _ _ (fun h => hkk h.symm)]
        · intro v hv hnt
          have hv' : dictGet rest k = some v := by
            simpa [dictGet, hkk] using hv
          rw [hstep]
          have := ihr.2.1 v hv' (by simpa using hnt)
          refine ⟨this.1, this.2.trans ?_⟩
          rw [dictGet_dictSet_ne _ _ _ _ (fun h => hkk h.symm)]
        · intro hnone
          have hv' : dictGet rest k = none := by
            simpa [dictGet, hkk] using hnone
          rw [hstep]
          have := ihr.2.2 hv'
          refine ⟨this.1.trans ?_, this.2⟩
          rw [dictGet_dictSet_ne _ _ _ _ (fun h => hkk h.symm)]
    · -- relation branch at the head key
      obtain ⟨l, ho⟩ := Option.isSome_iff_exists.1 hg
      have ht' : (dictGet q.term_dict k0).isSome = false := by
        simpa using ht
      have hstep : append_relation_and_symbols q ((k0, v0) :: rest)
          = append_relation_and_symbols
              { q with pred_grounded_relation_id_dict :=
                  dictSet q.pred_grounded_relation_id_dict k0 (l ++ [v0]) } rest := by
        simp [append_relation_and_symbols, ht', ho]
      have hokr : ∀ p ∈ rest,
          appendKeyOk
            { q with pred_grounded_relation_id_dict :=
                dictSet q.pred_grounded_relation_id_dict k0 (l ++ [v0]) } p.1 :=
        fun p hp => appendKeyOk_pg_set _ _ _ _ (hok p (List.mem_cons_of_mem _ hp))
      have ihr := ih _ hndr hokr
      by_cases hkk : k0 = k
      · subst hkk
        have hrest : dictGet rest k0 = none := not_mem_keysOf_dictGet _ _ hk0nr
        refine ⟨?_, ?_, ?_⟩
        · intro v hv htk
          exact absurd htk ht
        · intro v hv _
          have hv0 : v = v0 := by
            simp [dictGet] at hv
            omega
          subst hv0
          rw [hstep]
          refine ⟨((ihr.2.2 hrest).2).trans ?_, ((ihr.2.2 hrest).1).trans rfl⟩
          simp [dictGet_dictSet_self, ho]
        · intro hnone
          simp [dictGet] at hnone
      · refine ⟨?_, ?_, ?_⟩
        · intro v hv htk
          have hv' : dictGet rest k = some v := by
            simpa [dictGet, hkk] using hv
          rw [hstep]
          have := ihr.1 v hv' (by simpa using htk)
          refine ⟨this.1, this.2.trans ?_⟩
          rw [dictGet_dictSet_ne _ _ _ _ (fun h => hkk h.symm)]
        · intro v hv hnt
          have hv' : dictGet rest k = some v := by
            simpa [dictGet, hkk] using hv
          rw [hstep]
          have := ihr.2.1 v hv' (by simpa using hnt)
          refine ⟨this.1.trans ?_, this.2⟩
          rw [dictGet_dictSet_ne _ _ _ _ (fun h => hkk h.symm)]
        · intro hnone
          have hv' : dictGet rest k = none := by
            simpa [dictGet, hkk] using hnone
          rw [hstep]
          have := ihr.2.2 hv'
          refine ⟨this.1, this.2.trans ?_⟩
          rw [dictGet_dictSet_ne _ _ _ _ (fun h => hkk h.symm)]

theorem append_rs_tgLen_mono (d : List (String × Int)) (q : EFO1Query) (k : String) :
    tgLen q k ≤ tgLen (append_relation_and_symbols q d).1 k := by
  induction d generalizing q with
  | nil => simp [append_relation_and_symbols]
  | cons p rest ih =>
    obtain ⟨k0, v0⟩ := p
    by_cases ht : (dictGet q.term_dict k0).isSome
    · cases ho : dictGet q.term_grounded_entity_id_dict k0 with
      | none => simp [append_relation_and_symbols, ht, ho]
      | some l =>
        simp only [append_relation_and_symbols, ht, ho, if_true]
        refine le_trans ?_ (ih _)
        unfold tgLen
        by_cases hkk : k = k0
        · subst hkk
          simp [dictGet_dictSet_self, ho]
        · rw [dictGet_dictSet_ne _ _ _ _ hkk]
    · have ht' : (dictGet q.term_dict k0).isSome = false := by simpa using ht
      cases ho : dictGet q.pred_grounded_relation_id_dict k0 with
      | none => simp [append_relation_and_symbols, ht', ho]
      | some l =>
        simp only [append_relation_and_symbols, ht', Bool.false_eq_true, if_false, ho]
        exact ih
          { q with pred_grounded_relation_id_dict :=
              dictSet q.pred_grounded_relation_id_dict k0 (l ++ [v0]) }

theorem append_rs_pgLen_mono (d : List (String × Int)) (q : EFO1Query) (k : String) :
    pgLen q k ≤ pgLen (append_relation_and_symbols q d).1 k := by
  induction d generalizing q with
  | nil => simp [append_relation_and_symbols]
  | cons p rest ih =>
    obtain ⟨k0, v0⟩ := p
    by_cases ht : (dictGet q.term_dict k0).isSome
    · cases ho : dictGet q.term_grounded_entity_id_dict k0 with
      | none => simp [append_relation_and_symbols, ht, ho]
      | some l =>
        simp only [append_relation_and_symbols, ht, ho, if_true]
        exact ih
          { q with term_grounded_entity_id_dict :=
              dictSet q.term_grounded_entity_id_dict k0 (l ++ [v0]) }
    · have ht' : (dictGet q.term_dict k0).isSome = false := by simpa using ht
      cases ho : dictGet q.pred_grounded_relation_id_dict k0 with
      | none => simp [append_relation_and_symbols, ht', ho]
      | some l =>
        simp only [append_relation_and_symbols, ht', Bool.false_eq_true, if_false, ho]
        refine le_trans ?_ (ih _)
        unfold pgLen
        by_cases hkk : k = k0
        · subst hkk
          simp [dictGet_dictSet_self, ho]
        · rw [dictGet_dictSet_ne _ _ _ _ hkk]

/-- A raise-free call whose dict contains a term-naming key grows that
term's grounded-entity-id list by at least one. -/
theorem append_rs_tgLen_strict (d : List (String × Int)) (q : EFO1Query)
    (hok : ∀ p ∈ d, appendKeyOk q p.1) (s : String) (v : Int)
    (hmem : (s, v) ∈ d) (hts : (dictGet q.term_dict s).isSome) :
    tgLen q s + 1 ≤ tgLen (append_relation_and_symbols q d).1 s := by
  induction d generalizing q with
  | nil => simp at hmem
  | cons p rest ih =>
    obtain ⟨k0, v0⟩ := p
    have hk0 := hok (k0, v0) (List.mem_cons_self _ _)
    rcases List.mem_cons.1 hmem with hm | hm
    · injection hm with hs hv
      subst hs
      rcases hk0 with ⟨ht, hg⟩ | ⟨ht, hg⟩
      · obtain ⟨l, ho⟩ := Option.isSome_iff_exists.1 hg
        simp only [append_relation_and_symbols, ht, ho, if_true]
        refine le_trans ?_ (append_rs_tgLen_mono rest _ s)
        unfold tgLen
        simp [dictGet_dictSet_self, ho]
      · exact absurd hts ht
    · rcases hk0 with ⟨ht, hg⟩ | ⟨ht, hg⟩
      · obtain ⟨l, ho⟩ := Option.isSome_iff_exists.1 hg
        simp only [append_relation_and_symbols, ht, ho, if_true]
        have hok' : ∀ p ∈ rest,
            appendKeyOk
              { q with term_grounded_entity_id_dict :=
                  dictSet q.term_grounded_entity_id_dict k0 (l ++ [v0]) } p.1 :=
          fun p hp => appendKeyOk_tg_set _ _ _ _ (hok p (List.mem_cons_of_mem _ hp))
        refine le_trans ?_ (ih _ hok' hm hts)
        unfold tgLen
        by_cases hkk : s = k0
        · subst hkk
          simp [dictGet_dictSet_self, ho]
        · rw [dictGet_dictSet_ne _ _ _ _ hkk]
      · obtain ⟨l, ho⟩ := Option.isSome_iff_exists.1 hg
        have ht' : (dictGet q.term_dict k0).isSome = false := by simpa using ht
        simp only [append_relation_and_symbols, ht', Bool.false_eq_true, if_false, ho]
        have hok' : ∀ p ∈ rest,
            appendKeyOk
              { q with pred_grounded_relation_id_dict :=
                  dictSet q.pred_grounded_relation_id_dict k0 (l ++ [v0]) } p.1 :=
          fun p hp => appendKeyOk_pg_set _ _ _ _ (hok p (List.mem_cons_of_mem _ hp))
        exact ih _ hok' hm hts

/-- A raise-free call whose dict contains a relation-naming key (one not
in `term_dict`) grows that relation's grounded-id list by at least one. -/
theorem append_rs_pgLen_strict (d : List (String × Int)) (q : EFO1Query)
    (hok : ∀ p ∈ d, appendKeyOk q p.1) (s : String) (v : Int)
    (hmem : (s, v) ∈ d) (hts : ¬(dictGet q.term_dict s).isSome) :
    pgLen q s + 1 ≤ pgLen (append_relation_and_symbols q d).1 s := by
  induction d generalizing q with
  | nil => simp at hmem
  | cons p rest ih =>
    obtain ⟨k0, v0⟩ := p
    have hk0 := hok (k0, v0) (List.mem_cons_self _ _)
    rcases List.mem_cons.1 hmem with hm | hm
    · injection hm with hs hv
      subst hs
      rcases hk0 with ⟨ht, hg⟩ | ⟨ht, hg⟩
      · exact absurd ht hts
      · obtain ⟨l, ho⟩ := Option.isSome_iff_exists.1 hg
        have ht' : (dictGet q.term_dict s).isSome = false := by simpa using ht
        simp only [append_relation_and_symbols, ht', Bool.false_eq_true, if_false, ho]
        refine le_trans ?_ (append_rs_pgLen_mono rest _ s)
        unfold pgLen
        simp [dictGet_dictSet_self, ho]
    · rcases hk0 with ⟨ht, hg⟩ | ⟨ht, hg⟩
      · obtain ⟨l, ho⟩ := Option.isSome_iff_exists.1 hg
        simp only [append_relation_and_symbols, ht, ho, if_true]
        have hok' : ∀ p ∈ rest,
            appendKeyOk
              { q with term_grounded_entity_id_dict :=
                  dictSet q.term_grounded_entity_id_dict k0 (l ++ [v0]) } p.1 :=
          fun p hp => appendKeyOk_tg_set _ _ _ _ (hok p (List.mem_cons_of_mem _ hp))
        exact ih _ hok' hm hts
      · obtain ⟨l, ho⟩ := Option.isSome_iff_exists.1 hg
        have ht' : (dictGet q.term_dict k0).isSome = false := by simpa using ht
        simp only [append_relation_and_symbols, ht', Bool.false_eq_true, if_false, ho]
        have hok' : ∀ p ∈ rest,
            appendKeyOk
              { q with pred_grounded_relation_id_dict :=
                  dictSet q.pred_grounded_relation_id_dict k0 (l ++ [v0]) } p.1 :=
          fun p hp => appendKeyOk_pg_set _ _ _ _ (hok p (List.mem_cons_of_mem _ hp))
        refine le_trans ?_ (ih _ hok' hm hts)
        unfold pgLen
        by_cases hkk : s = k0
        · subst hkk
          simp [dictGet_dictSet_self, ho]
        · rw [dictGet_dictSet_ne _ _ _ _ hkk]

/-! ## Lemmas about num_instances -/

theorem checkSymbolLens_ok (q : EFO1Query) (n : Nat) (l : List (String × Term))
    (h : checkSymbolLens q n l = .ok ()) :
    ∀ p ∈ l, ∃ g, dictGet q.term_grounded_entity_id_dict p.1 = some g ∧ g.length = n := by
  induction l with
  | nil => intro p hp; simp at hp
  | cons p0 rest ih =>
    intro p hp
    obtain ⟨k0, t0⟩ := p0
    cases ho : dictGet q.term_grounded_entity_id_dict k0 with
    | none => simp [checkSymbolLens, ho] at h
    | some g =>
      by_cases hn : n = g.length
      · simp only [checkSymbolLens, ho] at h
        rw [if_pos hn] at h
        rcases List.mem_cons.1 hp with hp | hp
        · subst hp
          exact ⟨g, ho, hn.symm⟩
        · exact ih h p hp
      · simp [checkSymbolLens, ho, hn] at h

theorem checkSymbolLens_of (q : EFO1Query) (n : Nat) (l : List (String × Term))
    (h : ∀ p ∈ l, ∃ g, dictGet q.term_grounded_entity_id_dict p.1 = some g ∧ g.length = n) :
    checkSymbolLens q n l = .ok () := by
  induction l with
  | nil => rfl
  | cons p0 rest ih =>
    obtain ⟨g, hg, hlen⟩ := h p0 (List.mem_cons_self _ _)
    simp only [checkSymbolLens, hg, hlen, if_pos rfl]
    exact ih (fun p hp => h p (List.mem_cons_of_mem _ hp))

theorem checkPredLens_ok (q : EFO1Query) (n : Nat) (l : List (String × Atomic))
    (h : checkPredLens q n l = .ok ()) :
    ∀ p ∈ l, ∃ g, dictGet q.pred_grounded_relation_id_dict p.2.relation = some g
      ∧ g.length = n := by
  induction l with
  | nil => intro p hp; simp at hp
  | cons p0 rest ih =>
    intro p hp
    obtain ⟨k0, a0⟩ := p0
    cases ho : dictGet q.pred_grounded_relation_id_dict a0.relation with
    | none => simp [checkPredLens, ho] at h
    | some g =>
      by_cases hn : n = g.length
      · simp only [checkPredLens, ho] at h
        rw [if_pos hn] at h
        rcases List.mem_cons.1 hp with hp | hp
        · subst hp
          exact ⟨g, ho, hn.symm⟩
        · exact ih h p hp
      · simp [checkPredLens, ho, hn] at h

theorem checkPredLens_of (q : EFO1Query) (n : Nat) (l : List (String × Atomic))
    (h : ∀ p ∈ l, ∃ g, dictGet q.pred_grounded_relation_id_dict p.2.relation = some g
      ∧ g.length = n) :
    checkPredLens q n l = .ok () := by
  induction l with
  | nil => rfl
  | cons p0 rest ih =>
    obtain ⟨g, hg, hlen⟩ := h p0 (List.mem_cons_self _ _)
    simp only [checkPredLens, hg, hlen, if_pos rfl]
    exact ih (fun p hp => h p (List.mem_cons_of_mem _ hp))

/-- `num_instances` succeeds exactly when the checked lengths all equal
`len(easy_answer_list)`; the returned value is that length. -/
theorem num_instances_ok_iff (q : EFO1Query) (n : Nat) :
    num_instances q = .ok n ↔
      (n = q.easy_answer_list.length ∧
       q.hard_answer_list.length = q.easy_answer_list.length ∧
       checkSymbolLens q q.easy_answer_list.length (symbol_dict q) = .ok () ∧
       checkPredLens q q.easy_answer_list.length q.atomic_dict = .ok ()) := by
  unfold num_instances
  by_cases h1 : q.easy_answer_list.length = q.hard_answer_list.length
  · rw [if_pos h1]
    cases h2 : checkSymbolLens q q.easy_answer_list.length (symbol_dict q) with
    | error e =>
      constructor
      · intro h
        simp at h
      · rintro ⟨-, -, hh, -⟩
        exact Except.noConfusion hh
    | ok u =>
      cases h3 : checkPredLens q q.easy_answer_list.length q.atomic_dict with
      | error e =>
        constructor
        · intro h
          simp at h
        · rintro ⟨-, -, -, hh⟩
          exact Except.noConfusion hh
      | ok u' =>
        constructor
        · intro h
          have hn : q.easy_answer_list.length = n := by
            injection h
          exact ⟨hn.symm, h1.symm, rfl, rfl⟩
        · rintro ⟨rfl, -, -, -⟩
          rfl
  · rw [if_neg h1]
    constructor
    · intro h
      exact Except.noConfusion h
    · rintro ⟨-, hh, -, -⟩
      exact absurd hh.symm h1

theorem queryWF_mk' (f : Formula) : QueryWF (EFO1Query.mk' f) := by
  constructor
  · intro k
    show k ∈ keysOf (initTermGrounded (initTermDict (Formula.get_atomics f))) ↔
      k ∈ keysOf (initTermDict (Formula.get_atomics f))
    rw [← dictGet_isSome_iff_mem_keysOf, initTermGrounded_get]
    by_cases hk : k ∈ keysOf (initTermDict (Formula.get_atomics f))
    · simp [hk]
    · simp [hk]
  · intro p hp
    rw [← dictGet_isSome_iff_mem_keysOf]
    show (dictGet (initPredGrounded (Formula.get_atomics f)) p.2.relation).isSome
    rw [initPredGrounded_get]
    have hm : p.2.relation ∈ (Formula.get_atomics f).map (·.2.relation) :=
      List.mem_map_of_mem _ hp
    simp [hm]

theorem invC5_mk' (f : Formula) : InvC5 (EFO1Query.mk' f) (EFO1Query.mk' f) 0 := by
  refine ⟨⟨rfl, rfl, rfl, rfl⟩, rfl, rfl, rfl, ?_, ?_⟩
  · intro p hp
    have hpt : p ∈ (EFO1Query.mk' f).term_dict := List.mem_of_mem_filter hp
    have hk : p.1 ∈ keysOf (EFO1Query.mk' f).term_dict := List.mem_map_of_mem _ hpt
    refine ⟨[], ?_, rfl⟩
    show dictGet (initTermGrounded (initTermDict (Formula.get_atomics f))) p.1 = some []
    rw [initTermGrounded_get]
    have hk' : p.1 ∈ keysOf (initTermDict (Formula.get_atomics f)) := hk
    rw [if_pos hk']
  · intro r hr
    refine ⟨[], ?_, rfl⟩
    show dictGet (initPredGrounded (Formula.get_atomics f)) r = some []
    have hsome := (dictGet_isSome_iff_mem_keysOf _ r).2 hr
    rw [show (EFO1Query.mk' f).pred_grounded_relation_id_dict
          = initPredGrounded (Formula.get_atomics f) from rfl,
        initPredGrounded_get] at hsome
    rw [initPredGrounded_get]
    by_cases hm : r ∈ (Formula.get_atomics f).map (·.2.relation)
    · simp [hm]
    · simp [hm] at hsome

/-- One valid `append_qa_instances` call preserves the invariant, raising
no error and taking the instance count from `n` to `n + 1`. -/
theorem invC5_step (q0 q : EFO1Query) (n : Nat) (d : List (String × Int))
    (e h nn : PyVal) (hwf : QueryWF q0) (hinv : InvC5 q0 q n)
    (hd : ValidAppendDict q0 d) :
    (append_qa_instances q d e h nn).2 = none ∧
    InvC5 q0 (append_qa_instances q d e h nn).1 (n + 1) := by
  obtain ⟨⟨htd, had, htgk, hpgk⟩, hez, hhz, hnz, hsy, hpr⟩ := hinv
  obtain ⟨hnd, hkd, hsd, hrd, hdisj⟩ := hd
  have hok : ∀ p ∈ d, appendKeyOk q p.1 := by
    intro p hp
    have hpk : p.1 ∈ keysOf d := List.mem_map_of_mem _ hp
    rcases hkd p.1 hpk with hsym | hrel
    · obtain ⟨pp, hpp, hpe⟩ := List.mem_map.1 hsym
      have h1 : p.1 ∈ keysOf q0.term_dict :=
        hpe ▸ List.mem_map_of_mem _ (List.mem_of_mem_filter hpp)
      refine Or.inl ⟨?_, ?_⟩
      · refine (dictGet_isSome_iff_mem_keysOf _ _).2 ?_
        rw [htd]
        exact h1
      · refine (dictGet_isSome_iff_mem_keysOf _ _).2 ?_
        rw [htgk]
        exact (hwf.1 p.1).2 h1
    · refine Or.inr ⟨?_, ?_⟩
      · intro hcon
        have := (dictGet_isSome_iff_mem_keysOf _ _).1 hcon
        rw [htd] at this
        exact hdisj p.1 hrel this
      · refine (dictGet_isSome_iff_mem_keysOf _ _).2 ?_
        rw [hpgk]
        exact hrel
  have hars2 : (append_relation_and_symbols q d).2 = none := append_rs_ok d q hok
  have hq : append_relation_and_symbols q d = ((append_relation_and_symbols q d).1, none) := by
    rw [← hars2]
  have hF := append_rs_frame d q
  have hK := append_rs_keys d q
  have hstep : append_qa_instances q d e h nn
      = ({ (append_relation_and_symbols q d).1 with
            easy_answer_list :=
              (append_relation_and_symbols q d).1.easy_answer_list ++ [e],
            hard_answer_list :=
              (append_relation_and_symbols q d).1.hard_answer_list ++ [h],
            noisy_answer_list :=
              (append_relation_and_symbols q d).1.noisy_answer_list ++ [nn] }, none) := by
    unfold append_qa_instances
    rw [hq]
  rw [hstep]
  refine ⟨rfl, ⟨?_, ?_, ?_, ?_⟩, ?_, ?_, ?_, ?_, ?_⟩
  · show (append_relation_and_symbols q d).1.term_dict = q0.term_dict
    rw [hF.2.2.2.2.2.2.1, htd]
  · show (append_relation_and_symbols q d).1.atomic_dict = q0.atomic_dict
    rw [hF.2.2.2.2.2.1, had]
  · show keysOf (append_relation_and_symbols q d).1.term_grounded_entity_id_dict
      = keysOf q0.term_grounded_entity_id_dict
    rw [hK.1, htgk]
  · show keysOf (append_relation_and_symbols q d).1.pred_grounded_relation_id_dict
      = keysOf q0.pred_grounded_relation_id_dict
    rw [hK.2, hpgk]
  · show ((append_relation_and_symbols q d).1.easy_answer_list ++ [e]).length = n + 1
    rw [List.length_append, hF.2.1, hez]
    rfl
  · show ((append_relation_and_symbols q d).1.hard_answer_list ++ [h]).length = n + 1
    rw [List.length_append, hF.2.2.1, hhz]
    rfl
  · show ((append_relation_and_symbols q d).1.noisy_answer_list ++ [nn]).length = n + 1
    rw [List.length_append, hF.2.2.2.1, hnz]
    rfl
  · intro p hp
    have hpk : p.1 ∈ keysOf d := hsd p hp
    obtain ⟨v, hv⟩ := mem_keysOf_exists_dictGet d p.1 hpk
    have h1 : p.1 ∈ keysOf q0.term_dict :=
      List.mem_map_of_mem _ (List.mem_of_mem_filter hp)
    have htk : (dictGet q.term_dict p.1).isSome := by
      refine (dictGet_isSome_iff_mem_keysOf _ _).2 ?_
      rw [htd]
      exact h1
    obtain ⟨g, hg, hglen⟩ := hsy p hp
    have heff := (append_rs_get d q hnd hok p.1).1 v hv htk
    refine ⟨g ++ [v], ?_, by simp [hglen]⟩
    show dictGet (append_relation_and_symbols q d).1.term_grounded_entity_id_dict p.1
      = some (g ++ [v])
    rw [heff.1, hg]
    rfl
  · intro r hr
    have hrk : r ∈ keysOf d := hrd r hr
    obtain ⟨v, hv⟩ := mem_keysOf_exists_dictGet d r hrk
    have hnt : ¬(dictGet q.term_dict r).isSome := by
      intro hcon
      have := (dictGet_isSome_iff_mem_keysOf _ _).1 hcon
      rw [htd] at this
      exact hdisj r hr this
    obtain ⟨g, hg, hglen⟩ := hpr r hr
    have heff := (append_rs_get d q hnd hok r).2.1 v hv hnt
    refine ⟨g ++ [v], ?_, by simp [hglen]⟩
    show dictGet (append_relation_and_symbols q d).1.pred_grounded_relation_id_dict r
      = some (g ++ [v])
    rw [heff.1, hg]
    rfl

theorem applyInstances_inv (q0 : EFO1Query) (hwf : QueryWF q0) :
    ∀ (insts : List (List (String × Int) × PyVal × PyVal × PyVal))
      (q : EFO1Query) (n : Nat), InvC5 q0 q n →
      (∀ i ∈ insts, ValidAppendDict q0 i.1) →
      (applyInstances q insts).2 = none ∧
      InvC5 q0 (applyInstances q insts).1 (n + insts.length) := by
  intro insts
  induction insts with
  | nil =>
    intro q n hinv _
    exact ⟨rfl, by simpa using hinv⟩
  | cons i rest ih =>
    intro q n hinv hval
    have hstep := invC5_step q0 q n i.1 i.2.1 i.2.2.1 i.2.2.2 hwf hinv
      (hval i (List.mem_cons_self _ _))
    have hq : append_qa_instances q i.1 i.2.1 i.2.2.1 i.2.2.2
        = ((append_qa_instances q i.1 i.2.1 i.2.2.1 i.2.2.2).1, none) := by
      rw [← hstep.1]
    have hrec := ih (append_qa_instances q i.1 i.2.1 i.2.2.1 i.2.2.2).1 (n + 1)
      hstep.2 (fun j hj => hval j (List.mem_cons_of_mem _ hj))
    have hlen : n + 1 + rest.length = n + (i :: rest).length := by
      simp
      omega
    constructor
    · show (applyInstances q (i :: rest)).2 = none
      unfold applyInstances
      rw [hq]
      exact hrec.1
    · show InvC5 q0 (applyInstances q (i :: rest)).1 (n + (i :: rest).length)
      unfold applyInstances
      rw [hq]
      exact hlen ▸ hrec.2

/-- The invariant delivers the `num_instances` result. -/
theorem invC5_num_instances (q0 q : EFO1Query) (n : Nat)
    (hwf : QueryWF q0) (h : InvC5 q0 q n) : num_instances q = .ok n := by
  obtain ⟨⟨htd, had, htgk, hpgk⟩, hez, hhz, hnz, hsy, hpr⟩ := h
  rw [num_instances_ok_iff]
  have hsymq : symbol_dict q = symbol_dict q0 := by
    unfold symbol_dict
    rw [htd]
  refine ⟨hez.symm, by rw [hez, hhz], ?_, ?_⟩
  · rw [hez, hsymq]
    exact checkSymbolLens_of q n (symbol_dict q0) (fun p hp => hsy p hp)
  · rw [hez, had]
    exact checkPredLens_of q n q0.atomic_dict
      (fun p hp => hpr p.2.relation (hwf.2 p hp))

/-! ## BFS lemmas: progress, termination, and the defaultdict frame -/

theorem bfsTermUniverse_mem (adict : List (String × Atomic)) (p : String × Atomic)
    (hp : p ∈ adict) :
    p.2.head.name ∈ bfsTermUniverse adict ∧ p.2.tail.name ∈ bfsTermUniverse adict := by
  induction adict with
  | nil => simp at hp
  | cons p0 rest ih =>
    rcases List.mem_cons.1 hp with hp | hp
    · subst hp
      simp [bfsTermUniverse]
    · have := ih hp
      simp only [bfsTermUniverse, List.foldr_cons] at this ⊢
      exact ⟨List.mem_cons_of_mem _ (List.mem_cons_of_mem _ this.1),
             List.mem_cons_of_mem _ (List.mem_cons_of_mem _ this.2)⟩

theorem processTerm_visited_mono (order : Nat) (t : Term) (st : BfsSt) :
    ∀ x ∈ st.visited, x ∈ (processTerm order t st).visited := by
  intro x hx
  unfold processTerm
  by_cases h1 : t.state = Term.SYMBOL
  · simpa [h1] using hx
  · by_cases h2 : t.name ∈ st.visited
    · simpa [h1, h2] using hx
    · simpa [h1, h2] using Or.inr hx

theorem processTerm_index (order : Nat) (t : Term) (st : BfsSt) :
    (processTerm order t st).index = st.index := by
  unfold processTerm
  by_cases h1 : t.state = Term.SYMBOL
  · simp [h1]
  · by_cases h2 : t.name ∈ st.visited
    · simp [h1, h2]
    · simp [h1, h2]

theorem processTerm_err (order : Nat) (t : Term) (st : BfsSt) :
    (processTerm order t st).err = st.err := by
  unfold processTerm
  by_cases h1 : t.state = Term.SYMBOL
  · simp [h1]
  · by_cases h2 : t.name ∈ st.visited
    · simp [h1, h2]
    · simp [h1, h2]

theorem processTerm_inv (adict : List (String × Atomic)) (order : Nat) (t : Term)
    (st : BfsSt) (v0 : List String) (hU : t.name ∈ bfsTermUniverse adict)
    (h : BfsInv adict v0 st) : BfsInv adict v0 (processTerm order t st) := by
  obtain ⟨h1, h2⟩ := h
  unfold processTerm
  by_cases hs : t.state = Term.SYMBOL
  · simpa [hs] using ⟨h1, h2⟩
  · by_cases hv : t.name ∈ st.visited
    · simpa [hs, hv] using ⟨h1, h2⟩
    · simp only [hs, hv, if_false, if_neg]
      constructor
      · intro x hx
        exact List.mem_cons_of_mem _ (h1 x hx)
      · intro e he
        rcases List.mem_append.1 he with he | he
        · obtain ⟨e1, e2, e3⟩ := h2 e he
          exact ⟨e1, e2, List.mem_cons_of_mem _ e3⟩
        · have : e = (t.name, order + 1) := by simpa using he
          subst this
          exact ⟨hU, fun hc => hv (h1 _ hc), List.mem_cons_self _ _⟩

theorem processAtomic_visited_mono (adict : List (String × Atomic)) (order : Nat)
    (st : BfsSt) (aname : String) :
    ∀ x ∈ st.visited, x ∈ (processAtomic adict order st aname).visited := by
  intro x hx
  unfold processAtomic
  by_cases he : st.err.isSome
  · simpa [he] using hx
  · cases ha : dictGet adict aname with
    | none => simpa [he, ha] using hx
    | some a =>
      simp only [he, ha, if_false, Bool.false_eq_true]
      exact processTerm_visited_mono _ _ _ _
        (processTerm_visited_mono _ _ _ _ hx)

theorem processAtomic_index (adict : List (String × Atomic)) (order : Nat)
    (st : BfsSt) (aname : String) :
    (processAtomic adict order st aname).index = st.index := by
  unfold processAtomic
  by_cases he : st.err.isSome
  · simp [he]
  · cases ha : dictGet adict aname with
    | none => simp [he, ha]
    | some a =>
      simp only [he, ha, if_false, Bool.false_eq_true]
      rw [processTerm_index, processTerm_index]

theorem processAtomic_inv (adict : List (String × Atomic)) (order : Nat)
    (st : BfsSt) (aname : String) (v0 : List String)
    (h : BfsInv adict v0 st) : BfsInv adict v0 (processAtomic adict order st aname) := by
  unfold processAtomic
  by_cases he : st.err.isSome
  · simpa [he] using h
  · cases ha : dictGet adict aname with
    | none =>
      obtain ⟨h1, h2⟩ := h
      simp only [he, ha, if_false, Bool.false_eq_true]
      exact ⟨h1, h2⟩
    | some a =>
      simp only [he, ha, if_false, Bool.false_eq_true]
      have hmem := dictGet_some_mem adict aname a ha
      have hU := bfsTermUniverse_mem adict (aname, a) hmem
      exact processTerm_inv adict order a.tail _ v0 hU.2
        (processTerm_inv adict order a.head st v0 hU.1 h)

theorem foldAtomics_visited_mono (adict : List (String × Atomic)) (order : Nat)
    (adj : List String) (st : BfsSt) :
    ∀ x ∈ st.visited, x ∈ (adj.foldl (processAtomic adict order) st).visited := by
  induction adj generalizing st with
  | nil => intro x hx; simpa using hx
  | cons a rest ih =>
    intro x hx
    simp only [List.foldl_cons]
    exact ih _ _ (processAtomic_visited_mono _ _ _ _ _ hx)

theorem foldAtomics_index (adict : List (String × Atomic)) (order : Nat)
    (adj : List String) (st : BfsSt) :
    (adj.foldl (processAtomic adict order) st).index = st.index := by
  induction adj generalizing st with
  | nil => simp
  | cons a rest ih =>
    simp only [List.foldl_cons]
    rw [ih, processAtomic_index]

theorem foldAtomics_inv (adict : List (String × Atomic)) (order : Nat)
    (adj : List String) (st : BfsSt) (v0 : List String)
    (h : BfsInv adict v0 st) :
    BfsInv adict v0 (adj.foldl (processAtomic adict order) st) := by
  induction adj generalizing st with
  | nil => simpa using h
  | cons a rest ih =>
    simp only [List.foldl_cons]
    exact ih _ (processAtomic_inv _ _ _ _ _ h)

theorem processVar_visited_mono (adict : List (String × Atomic)) (st : BfsSt)
    (v : String × Nat) :
    ∀ x ∈ st.visited, x ∈ (processVar adict st v).visited := by
  intro x hx
  unfold processVar
  by_cases he : st.err.isSome
  · simpa [he] using hx
  · simp only [he, if_false, Bool.false_eq_true]
    exact foldAtomics_visited_mono _ _ _ _ _ hx

theorem processVar_inv (adict : List (String × Atomic)) (st : BfsSt)
    (v : String × Nat) (v0 : List String)
    (h : ∀ x ∈ v0, x ∈ st.visited) :
    BfsInv adict v0 (processVar adict st v)
      ∨ (processVar adict st v = st ∧ st.err.isSome) := by
  unfold processVar
  by_cases he : st.err.isSome
  · right
    simp [he]
  · left
    simp only [he, if_false, Bool.false_eq_true]
    refine foldAtomics_inv _ _ _ _ _ ⟨h, ?_⟩
    intro e he'
    simp at he'

theorem processLevel_visited_mono (adict : List (String × Atomic))
    (level : List (String × Nat)) (st : BfsSt) :
    ∀ x ∈ st.visited, x ∈ (processLevel adict level st).visited := by
  induction level generalizing st with
  | nil => intro x hx; simpa [processLevel] using hx
  | cons v rest ih =>
    intro x hx
    show x ∈ (List.foldl (processVar adict) (processVar adict st v) rest).visited
    exact ih _ _ (processVar_visited_mono _ _ _ _ hx)

/-- A nonempty level processed without a pending exception yields a
next-level collection of fresh names: each is a term name of an indexed
atomic, was unvisited when the level started, and is visited after. -/
theorem processLevel_inv (adict : List (String × Atomic))
    (level : List (String × Nat)) (st : BfsSt) (v0 : List String)
    (h : ∀ x ∈ v0, x ∈ st.visited) (hne : level ≠ []) :
    BfsInv adict v0 (processLevel adict level st)
      ∨ (processLevel adict level st = st ∧ st.err.isSome) := by
  induction level generalizing st with
  | nil => exact absurd rfl hne
  | cons v rest ih =>
    simp only [processLevel] at ih ⊢
    rw [List.foldl_cons]
    by_cases hr : rest = []
    · subst hr
      simpa using processVar_inv adict st v v0 h
    · have h' : ∀ x ∈ v0, x ∈ (processVar adict st v).visited :=
        fun x hx => processVar_visited_mono _ _ _ _ (h x hx)
      rcases ih (processVar adict st v) h' hr with hi | hi
      · exact Or.inl hi
      · rcases processVar_inv adict st v v0 h with hv | hv
        · rw [hi.1]
          exact Or.inl hv
        · exact Or.inr ⟨hi.1.trans hv.1, hv.2⟩

theorem List.exists_mem_of_ne_nil' {α : Type} (l : List α) (h : l ≠ []) : ∃ x, x ∈ l := by
  cases l with
  | nil => exact absurd rfl h
  | cons a rest => exact ⟨a, List.mem_cons_self _ _⟩

/-- Termination: with fuel exceeding the number of indexed term names not
yet visited, the loop returns (`visited` grows by at least one universe
name whenever a nonempty next level is produced). -/
theorem bfsLoop_isSome_of_lt (adict : List (String × Atomic)) :
    ∀ (fuel : Nat) (levels : List (List (String × Nat))) (st : BfsSt),
      ((bfsTermUniverse adict).toFinset \ st.visited.toFinset).card < fuel →
      levels.getLastD [] ≠ [] →
      (bfsLoop adict fuel levels st).isSome := by
  intro fuel
  induction fuel with
  | zero =>
    intro levels st hcard _
    exact absurd hcard (Nat.not_lt_zero _)
  | succ fuel ih =>
    intro levels st hcard hlast
    show (bfsLoop adict (fuel + 1) levels st).isSome
    rw [bfsLoop]
    by_cases he : (processLevel adict (levels.getLastD []) st).err.isSome
    · rw [if_pos he]
      rfl
    · rw [if_neg he]
      by_cases hn : (processLevel adict (levels.getLastD []) st).next = []
      · rw [if_pos hn]
        rfl
      · rw [if_neg hn]
        have hinv : BfsInv adict st.visited (processLevel adict (levels.getLastD []) st) := by
          rcases processLevel_inv adict (levels.getLastD []) st st.visited
              (fun x hx => hx) hlast with hi | hi
          · exact hi
          · exact absurd (hi.1.symm ▸ hi.2) he
        obtain ⟨e, hemem⟩ := List.exists_mem_of_ne_nil'
          (processLevel adict (levels.getLastD []) st).next hn
        obtain ⟨heU, heNew, heVis⟩ := hinv.2 e hemem
        have hmono : ∀ x ∈ st.visited,
            x ∈ (processLevel adict (levels.getLastD []) st).visited :=
          processLevel_visited_mono _ _ _
        have hss : (bfsTermUniverse adict).toFinset \
              (processLevel adict (levels.getLastD []) st).visited.toFinset ⊂
            (bfsTermUniverse adict).toFinset \ st.visited.toFinset := by
          constructor
          · intro x hx
            rw [Finset.mem_sdiff] at hx ⊢
            refine ⟨hx.1, fun hc => hx.2 ?_⟩
            rw [List.mem_toFinset] at hc ⊢
            exact hmono x hc
          · intro hsub
            have he1 : e.1 ∈ (bfsTermUniverse adict).toFinset \ st.visited.toFinset := by
              rw [Finset.mem_sdiff, List.mem_toFinset, List.mem_toFinset]
              exact ⟨heU, heNew⟩
            have he2 := hsub he1
            rw [Finset.mem_sdiff, List.mem_toFinset, List.mem_toFinset] at he2
            exact he2.2 heVis
        have hlt := Finset.card_lt_card hss
        refine ih _ _ (by omega) ?_
        rw [List.getLastD_concat]
        exact hn

theorem processTerm_keysInv (order : Nat) (t : Term) (st : BfsSt)
    (index0 : List (String × List String)) (hU : t.name ∈ keysOf index0)
    (h : KeysInv index0 st) : KeysInv index0 (processTerm order t st) := by
  unfold processTerm
  by_cases hs : t.state = Term.SYMBOL
  · simpa [hs] using h
  · by_cases hv : t.name ∈ st.visited
    · simpa [hs, hv] using h
    · simp only [hs, hv, if_false, if_neg]
      intro e he
      rcases List.mem_append.1 he with he | he
      · exact h e he
      · have : e = (t.name, order + 1) := by simpa using he
        subst this
        exact hU

theorem processAtomic_keysInv (adict : List (String × Atomic)) (order : Nat)
    (st : BfsSt) (aname : String) (index0 : List (String × List String))
    (hc : IndexClosed adict index0) (h : KeysInv index0 st) :
    KeysInv index0 (processAtomic adict order st aname) := by
  unfold processAtomic
  by_cases he : st.err.isSome
  · simpa [he] using h
  · cases ha : dictGet adict aname with
    | none =>
      simp only [he, ha, if_false, Bool.false_eq_true]
      exact h
    | some a =>
      simp only [he, ha, if_false, Bool.false_eq_true]
      have hmem := dictGet_some_mem adict aname a ha
      have hU := hc (aname, a) hmem
      exact processTerm_keysInv _ _ _ _ hU.2 (processTerm_keysInv _ _ _ _ hU.1 h)

theorem foldAtomics_keysInv (adict : List (String × Atomic)) (order : Nat)
    (adj : List String) (st : BfsSt) (index0 : List (String × List String))
    (hc : IndexClosed adict index0) (h : KeysInv index0 st) :
    KeysInv index0 (adj.foldl (processAtomic adict order) st) := by
  induction adj generalizing st with
  | nil => simpa using h
  | cons a rest ih =>
    simp only [List.foldl_cons]
    exact ih _ (processAtomic_keysInv _ _ _ _ _ hc h)

theorem processVar_frame (adict : List (String × Atomic)) (st : BfsSt)
    (v : String × Nat) (index0 : List (String × List String))
    (hc : IndexClosed adict index0) (hidx : st.index = index0)
    (hv : v.1 ∈ keysOf index0) (h : KeysInv index0 st) :
    (processVar adict st v).index = index0 ∧ KeysInv index0 (processVar adict st v) := by
  unfold processVar
  by_cases he : st.err.isSome
  · simp only [he, if_true]
    exact ⟨hidx, h⟩
  · simp only [he, if_false, Bool.false_eq_true]
    have hvs : (dictGet st.index v.1).isSome := by
      rw [hidx]
      exact (dictGet_isSome_iff_mem_keysOf _ _).2 hv
    obtain ⟨adj0, hadj⟩ := Option.isSome_iff_exists.1 hvs
    have hdd : ddGet st.index v.1 = (adj0, st.index) := by
      unfold ddGet
      rw [hadj]
    rw [hdd]
    constructor
    · rw [foldAtomics_index]
      exact hidx
    · exact foldAtomics_keysInv _ _ _ _ _ hc (fun e he' => by simp at he')

theorem processLevel_frame (adict : List (String × Atomic))
    (level : List (String × Nat)) (st : BfsSt)
    (index0 : List (String × List String))
    (hc : IndexClosed adict index0) (hidx : st.index = index0)
    (hall : ∀ e ∈ level, e.1 ∈ keysOf index0) (h : KeysInv index0 st) :
    (processLevel adict level st).index = index0 ∧
    KeysInv index0 (processLevel adict level st) := by
  induction level generalizing st with
  | nil => exact ⟨hidx, h⟩
  | cons v rest ih =>
    simp only [processLevel, List.foldl_cons] at ih ⊢
    have hstep := processVar_frame adict st v index0 hc hidx
      (hall v (List.mem_cons_self _ _)) h
    exact ih _ hstep.1 (fun e he => hall e (List.mem_cons_of_mem _ he)) hstep.2

/-- When the source and every reachable name are index keys, the
defaultdict is never extended: the returned state's index equals the
initial one (whatever the loop's outcome). -/
theorem bfsLoop_index_const (adict : List (String × Atomic))
    (index0 : List (String × List String)) (hc : IndexClosed adict index0) :
    ∀ (fuel : Nat) (levels : List (List (String × Nat))) (st : BfsSt)
      (out : List (List (String × Nat)) × BfsSt),
      st.index = index0 → KeysInv index0 st →
      (∀ e ∈ levels.getLastD [], e.1 ∈ keysOf index0) →
      bfsLoop adict fuel levels st = some out → out.2.index = index0 := by
  intro fuel
  induction fuel with
  | zero =>
    intro levels st out _ _ _ hout
    exact Option.noConfusion hout
  | succ fuel ih =>
    intro levels st out hidx hkeys hlast hout
    rw [bfsLoop] at hout
    have hframe := processLevel_frame adict (levels.getLastD []) st index0
      hc hidx hlast hkeys
    by_cases he : (processLevel adict (levels.getLastD []) st).err.isSome
    · rw [if_pos he] at hout
      obtain rfl : (levels, processLevel adict (levels.getLastD []) st) = out :=
        Option.some.inj hout
      exact hframe.1
    · rw [if_neg he] at hout
      by_cases hn : (processLevel adict (levels.getLastD []) st).next = []
      · rw [if_pos hn] at hout
        obtain rfl : (levels, processLevel adict (levels.getLastD []) st) = out :=
          Option.some.inj hout
        exact hframe.1
      · rw [if_neg hn] at hout
        refine ih _ _ _ hframe.1 hframe.2 ?_ hout
        rw [List.getLastD_concat]
        exact hframe.2

/-- Looking up an absent source name mutates the defaultdict (an empty
adjacency entry is inserted) and the traversal returns only level 0. -/
theorem get_bfs_absent (q : EFO1Query) (s : String)
    (h : dictGet q.term_name2atomic_name_list s = none) :
    get_bfs_variable_ordering q s
      = some (.ok [[(s, 0)]],
          { q with term_name2atomic_name_list :=
              q.term_name2atomic_name_list ++ [(s, [])] }) := by
  have hb : bfsLoop q.atomic_dict ((bfsTermUniverse q.atomic_dict).length + 1)
      [[(s, 0)]]
      { next := [],
        visited := s.data.map (fun c => String.mk [c]),
        index := q.term_name2atomic_name_list, err := none }
      = some ([[(s, 0)]],
          { next := [],
            visited := s.data.map (fun c => String.mk [c]),
            index := q.term_name2atomic_name_list ++ [(s, [])], err := none }) := by
    rw [bfsLoop]
    simp [processLevel, processVar, ddGet, h]
  simp only [get_bfs_variable_ordering]
  rw [hb]

/-- A key that is neither a term name nor a relation-dict key raises
KeyError; every key before it has already been appended (no rollback), and
every key after it is never reached. -/
theorem append_rs_fail_after (pre : List (String × Int)) (q : EFO1Query)
    (post : List (String × Int)) (k : String) (v : Int)
    (hok : ∀ p ∈ pre, appendKeyOk q p.1)
    (hbadT : ¬(dictGet q.term_dict k).isSome)
    (hbadP : dictGet q.pred_grounded_relation_id_dict k = none) :
    append_relation_and_symbols q (pre ++ (k, v) :: post)
      = ((append_relation_and_symbols q pre).1, some ("KeyError: " ++ k)) := by
  induction pre generalizing q with
  | nil =>
    have ht' : (dictGet q.term_dict k).isSome = false := by simpa using hbadT
    simp only [List.nil_append, append_relation_and_symbols, ht',
      Bool.false_eq_true, if_false, hbadP]
  | cons p0 rest ih =>
    obtain ⟨k0, v0⟩ := p0
    have hk0 := hok (k0, v0) (List.mem_cons_self _ _)
    have hk0ne : k0 ≠ k := by
      intro hEq
      subst hEq
      rcases hk0 with ⟨ht, _⟩ | ⟨_, hg⟩
      · exact hbadT ht
      · rw [hbadP] at hg
        simp at hg
    rcases hk0 with ⟨ht, hg⟩ | ⟨ht, hg⟩
    · obtain ⟨l, ho⟩ := Option.isSome_iff_exists.1 hg
      simp only [List.cons_append, append_relation_and_symbols, ht, ho, if_true]
      refine ih _ (fun p hp => appendKeyOk_tg_set _ _ _ _ (hok p (List.mem_cons_of_mem _ hp)))
        hbadT hbadP
    · obtain ⟨l, ho⟩ := Option.isSome_iff_exists.1 hg
      have ht' : (dictGet q.term_dict k0).isSome = false := by simpa using ht
      simp only [List.cons_append, append_relation_and_symbols, ht',
        Bool.false_eq_true, if_false, ho]
      refine ih _ (fun p hp => appendKeyOk_pg_set _ _ _ _ (hok p (List.mem_cons_of_mem _ hp)))
        hbadT ?_
      rw [dictGet_dictSet_ne _ _ _ _ hk0ne.symm]
      exact hbadP

/-- `get_bfs_variable_ordering` always returns: its fuel bound suffices. -/
theorem get_bfs_isSome (q : EFO1Query) (s : String) :
    (get_bfs_variable_ordering q s).isSome := by
  have hcard : ((bfsTermUniverse q.atomic_dict).toFinset \
      (s.data.map (fun c => String.mk [c])).toFinset).card
      < (bfsTermUniverse q.atomic_dict).length + 1 := by
    calc ((bfsTermUniverse q.atomic_dict).toFinset \
            (s.data.map (fun c => String.mk [c])).toFinset).card
        ≤ (bfsTermUniverse q.atomic_dict).toFinset.card :=
          Finset.card_le_card (Finset.sdiff_subset)
      _ ≤ (bfsTermUniverse q.atomic_dict).length := List.toFinset_card_le _
      _ < (bfsTermUniverse q.atomic_dict).length + 1 := Nat.lt_succ_self _
  have hb := bfsLoop_isSome_of_lt q.atomic_dict
    ((bfsTermUniverse q.atomic_dict).length + 1) [[(s, 0)]]
    { next := [], visited := s.data.map (fun c => String.mk [c]),
      index := q.term_name2atomic_name_list, err := none }
    hcard (by simp)
  obtain ⟨out, hout⟩ := Option.isSome_iff_exists.1 hb
  obtain ⟨levels, stf⟩ := out
  simp only [get_bfs_variable_ordering]
  rw [hout]
  rfl

/-- Unfolding `get_bfs_variable_ordering` when the loop's outcome is
known. -/
theorem get_bfs_eq_of_bfsLoop (q : EFO1Query) (s : String)
    (levels : List (List (String × Nat))) (stf : BfsSt)
    (hout : bfsLoop q.atomic_dict ((bfsTermUniverse q.atomic_dict).length + 1)
      [[(s, 0)]]
      { next := [], visited := s.data.map (fun c => String.mk [c]),
        index := q.term_name2atomic_name_list, err := none }
      = some (levels, stf)) :
    get_bfs_variable_ordering q s
      = some (match stf.err with
              | some e => .error e
              | none => .ok levels,
              { q with term_name2atomic_name_list := stf.index }) := by
  simp only [get_bfs_variable_ordering]
  rw [hout]

/-! ## The claims -/

/-- Claim C1 (code defect): the round trip `parse(to_ldict(x))` cannot
succeed on any formula containing an atomic.  At the programmatically
built atomic `r(a,e)` with every attribute its serialization needs set,
`to_ldict` succeeds — producing exactly the documented wire dict — and
`lstr` is `r(a,e)`, but `Formula.parse` of that dict raises TypeError:
`Atomic.parse` executes `cls(name=name, head=head, tail=tail)` while
`Atomic.__init__` has parameters `(relation, head, tail)` and no `name`
parameter.  The claimed `lstr` equality is therefore unreachable. -/
theorem C1_roundtrip_raises_on_atomic :
    Atomic.lstr atomicRAE = "r(a,e)" ∧
    Atomic.to_ldict atomicRAE = .ok wireRAE ∧
    Formula.parseF 32 wireRAE
      = .error "TypeError: __init__ got an unexpected keyword argument name" :=
  ⟨rfl, rfl, rfl⟩

/-- Claim C2 (code defect): `check_ldict` rejects the well-formed Atomic
wire dict (the very dict `Atomic.to_ldict` produces, with the sub-terms
under `head` and `tail`): its `pred` branch subscripts `args['term1']`,
raising KeyError, instead of recursing into `head`/`tail`. -/
theorem C2_check_ldict_rejects_wire_atomic :
    check_ldict 32 wireRAE = .error "KeyError: term1" := rfl

/-- Claim C3 (code defect): parsing a Negation wrapping an Atomic can
never set the inner atomic's `negated` attribute to True.  The parse
crashes first (the TypeError of `Atomic.parse`), and the line that would
run afterwards assigns `skolem_negation`, not the `negated` attribute
that `Atomic.__init__` declares.  An atomic never wrapped by a Negation
does keep `negated = False` (second conjunct). -/
theorem C3_negation_parse_never_sets_negated :
    Formula.parseF 32 wireNegRAE
      = .error "TypeError: __init__ got an unexpected keyword argument name" ∧
    ( Atomic.mk' "r" termA termE).negated = false :=
  ⟨rfl, rfl⟩

/-- Claim C4 (code defect): on `r1(f,e1) & r2(f,e2) & r3(e1,e3) & r4(e2,e4)`
from source `f`, level 1 is `[e1, e2]` and the claim requires level 2 to
collect the discoveries of BOTH level-1 variables, `{e3, e4}`.  The code
resets `next_var_name_level = []` inside the per-variable loop, so only
the last variable's discoveries survive: the returned levels are
`[[f,0], [(e1,1),(e2,1)], [(e4,2)]]` and `e3` (already marked visited and
discarded) appears in no level at all. -/
theorem C4_bfs_level_resets_drop_discoveries :
    get_bfs_variable_ordering queryBfs "f"
      = some (.ok [[("f", 0)], [("e1", 1), ("e2", 1)], [("e4", 2)]], queryBfs) ∧
    "e3" ∉ ([[("f", 0)], [("e1", 1), ("e2", 1)],
      [("e4", 2)]] : List (List (String × Nat))).flatten.map Prod.fst :=
  ⟨rfl, by decide⟩

/-- Claim C5: from a fresh query, any sequence of `n` valid
`append_qa_instances` calls (each supplying one entity id per SYMBOL term
and one relation id per relation) raises nothing, leaves all three answer
lists with exactly `n` entries (one appended per call), and
`num_instances` returns `n`. -/
theorem C5_append_then_num_instances (f : Formula)
    (insts : List (List (String × Int) × PyVal × PyVal × PyVal))
    (hvalid : ∀ i ∈ insts, ValidAppendDict (EFO1Query.mk' f) i.1) :
    (applyInstances (EFO1Query.mk' f) insts).2 = none ∧
    num_instances (applyInstances (EFO1Query.mk' f) insts).1 = .ok insts.length ∧
    (applyInstances (EFO1Query.mk' f) insts).1.easy_answer_list.length = insts.length ∧
    (applyInstances (EFO1Query.mk' f) insts).1.hard_answer_list.length = insts.length ∧
    (applyInstances (EFO1Query.mk' f) insts).1.noisy_answer_list.length = insts.length := by
  have hwf := queryWF_mk' f
  have h := applyInstances_inv (EFO1Query.mk' f) hwf insts (EFO1Query.mk' f) 0
    (invC5_mk' f) hvalid
  have hnum := invC5_num_instances (EFO1Query.mk' f) _ _ hwf h.2
  rw [Nat.zero_add] at hnum
  obtain ⟨-, he, hh, hn, -, -⟩ := h.2
  rw [Nat.zero_add] at he hh hn
  exact ⟨h.1, hnum, he, hh, hn⟩

/-- Witness for C5 at `formulaQa` with two concrete instances. -/
theorem C5_witness :
    (∀ i ∈ instsQa, ValidAppendDict (EFO1Query.mk' formulaQa) i.1) ∧
    num_instances (applyInstances (EFO1Query.mk' formulaQa) instsQa).1 = .ok 2 :=
  ⟨by decide, (C5_append_then_num_instances formulaQa instsQa (by decide)).2.1⟩

/-- Counterexample to claim C6 as stated: `num_instances` does not examine
`noisy_answer_list`, so tampering it alone (length 1 against 0 everywhere
else) is not detected — the call succeeds instead of failing. -/
theorem C6_counterexample_noisy_unchecked :
    queryTamperedNoisy.noisy_answer_list.length = 1 ∧
    queryTamperedNoisy.easy_answer_list.length = 0 ∧
    num_instances queryTamperedNoisy = .ok 0 :=
  ⟨rfl, rfl, rfl⟩

/-- Claim C6 amended: `num_instances` fails whenever `easy_answer_list`,
`hard_answer_list`, any SYMBOL term's grounded-entity-id list, or any
formula relation's grounded-id list differs in length from the others
(equivalently: it succeeds only when all of those lengths agree with
`len(easy_answer_list)`); `noisy_answer_list` is not checked. -/
theorem C6_amended_num_instances_checks (q : EFO1Query) (n : Nat)
    (h : num_instances q = .ok n) :
    n = q.easy_answer_list.length ∧
    q.hard_answer_list.length = q.easy_answer_list.length ∧
    (∀ p ∈ symbol_dict q, ∃ g, dictGet q.term_grounded_entity_id_dict p.1 = some g
       ∧ g.length = q.easy_answer_list.length) ∧
    (∀ p ∈ q.atomic_dict, ∃ g, dictGet q.pred_grounded_relation_id_dict p.2.relation = some g
       ∧ g.length = q.easy_answer_list.length) := by
  have hh := (num_instances_ok_iff q n).1 h
  exact ⟨hh.1, hh.2.1, checkSymbolLens_ok _ _ _ hh.2.2.1, checkPredLens_ok _ _ _ hh.2.2.2⟩

/-- Witness for the amended C6 at the fresh `formulaQa` query. -/
theorem C6_witness :
    num_instances (EFO1Query.mk' formulaQa) = .ok 0 ∧
    (0 : Nat) = (EFO1Query.mk' formulaQa).easy_answer_list.length :=
  ⟨rfl, (C6_amended_num_instances_checks (EFO1Query.mk' formulaQa) 0 rfl).1⟩

/-- Claim C7: in a completed `append_relation_and_symbols` call with
duplicate-free keys, a key `k` of `append_dict` that is in `term_dict`
has its value appended to `term_grounded_entity_id_dict[k]` while the
relation dict is unchanged at `k` — even when `k` also names a relation;
only a key not in `term_dict` has its value appended to the relation's
grounded-id list (and the term dict is unchanged at it). -/
theorem C7_term_precedence (q : EFO1Query) (d : List (String × Int))
    (hnd : (keysOf d).Nodup) (hok : ∀ p ∈ d, appendKeyOk q p.1)
    (k : String) (v : Int) (hkv : dictGet d k = some v) :
    (k ∈ keysOf q.term_dict →
       dictGet (append_relation_and_symbols q d).1.term_grounded_entity_id_dict k
         = (dictGet q.term_grounded_entity_id_dict k).map (· ++ [v]) ∧
       dictGet (append_relation_and_symbols q d).1.pred_grounded_relation_id_dict k
         = dictGet q.pred_grounded_relation_id_dict k) ∧
    (k ∉ keysOf q.term_dict →
       dictGet (append_relation_and_symbols q d).1.pred_grounded_relation_id_dict k
         = (dictGet q.pred_grounded_relation_id_dict k).map (· ++ [v]) ∧
       dictGet (append_relation_and_symbols q d).1.term_grounded_entity_id_dict k
         = dictGet q.term_grounded_entity_id_dict k) := by
  have hg := append_rs_get d q hnd hok k
  constructor
  · intro hk
    exact hg.1 v hkv ((dictGet_isSome_iff_mem_keysOf _ _).2 hk)
  · intro hk
    refine hg.2.1 v hkv ?_
    intro hc
    exact hk ((dictGet_isSome_iff_mem_keysOf _ _).1 hc)

/-- Witness for C7 on `queryShadow`, whose key `x` names both a SYMBOL
term and a relation: the entity list of `x` receives the value while the
relation list of `x` stays empty. -/
theorem C7_witness :
    ((keysOf dShadow).Nodup ∧ (∀ p ∈ dShadow, appendKeyOk queryShadow p.1) ∧
      dictGet dShadow "x" = some 5 ∧
      "x" ∈ keysOf queryShadow.term_dict ∧
      "x" ∈ keysOf queryShadow.pred_grounded_relation_id_dict) ∧
    dictGet (append_relation_and_symbols queryShadow dShadow).1.term_grounded_entity_id_dict "x"
      = some [5] ∧
    dictGet (append_relation_and_symbols queryShadow dShadow).1.pred_grounded_relation_id_dict "x"
      = some [] := by
  refine ⟨⟨by decide, by decide, by decide, by decide, by decide⟩, ?_⟩
  have h := (C7_term_precedence queryShadow dShadow (by decide) (by decide) "x" 5
    (by decide)).1 (by decide)
  constructor
  · rw [h.1]
    rfl
  · rw [h.2]
    rfl

/-- Claim C8: `get_bfs_variable_ordering` terminates for every query and
every source variable name (the visited set only grows within the finite
set of indexed term names, and the loop exits on an empty next level or a
raised exception): the embedded loop never exhausts its proven fuel
bound. -/
theorem C8_bfs_terminates (q : EFO1Query) (s : String) :
    (get_bfs_variable_ordering q s).isSome :=
  get_bfs_isSome q s

/-- Counterexample to claim C9 as stated: when the offending key comes
first, the failed call appends nothing at all, so the per-instance lists
remain mutually consistent (all empty here) — the claim's final clause
("one such failed call leaves the lists at mutually inconsistent
lengths") fails at this input.  The KeyError and the untouched answer
lists are as claimed. -/
theorem C9_counterexample_consistent_failure :
    append_qa_instances (EFO1Query.mk' formulaQa) [("bad", 1)]
        (.plist []) (.plist []) (.plist [])
      = (EFO1Query.mk' formulaQa, some "KeyError: bad") ∧
    perInstanceConsistent (EFO1Query.mk' formulaQa) :=
  ⟨rfl, by decide⟩

/-- Claim C9 amended: a key that is neither a term name nor a
relation-dict key raises KeyError; the keys before it have already been
appended (no rollback: the state is exactly the prefix applied), the
three answer lists receive no entry, and — when at least one
earlier-appended key was a SYMBOL-term name or a relation name and the
per-instance lists were consistent before — the failed call leaves the
per-instance lists at mutually inconsistent lengths. -/
theorem C9_amended_failed_append (q : EFO1Query) (pre post : List (String × Int))
    (k : String) (v : Int) (e h nn : PyVal)
    (hok : ∀ p ∈ pre, appendKeyOk q p.1)
    (hbadT : ¬(dictGet q.term_dict k).isSome)
    (hbadP : dictGet q.pred_grounded_relation_id_dict k = none) :
    append_qa_instances q (pre ++ (k, v) :: post) e h nn
      = ((append_relation_and_symbols q pre).1, some ("KeyError: " ++ k)) ∧
    (append_relation_and_symbols q pre).1.easy_answer_list = q.easy_answer_list ∧
    (append_relation_and_symbols q pre).1.hard_answer_list = q.hard_answer_list ∧
    (append_relation_and_symbols q pre).1.noisy_answer_list = q.noisy_answer_list ∧
    (∀ s v', (s, v') ∈ pre →
      (s ∈ keysOf (symbol_dict q) ∨
        (¬(dictGet q.term_dict s).isSome ∧
         s ∈ keysOf q.pred_grounded_relation_id_dict)) →
      perInstanceConsistent q →
      ¬ perInstanceConsistent (append_relation_and_symbols q pre).1) := by
  have hfail := append_rs_fail_after pre q post k v hok hbadT hbadP
  have hF := append_rs_frame pre q
  refine ⟨?_, hF.2.1, hF.2.2.1, hF.2.2.2.1, ?_⟩
  · unfold append_qa_instances
    rw [hfail]
  · intro s v' hmem hcase hcons
    intro hcons'
    have heasy' : (append_relation_and_symbols q pre).1.easy_answer_list.length
        = q.easy_answer_list.length := by rw [hF.2.1]
    rcases hcase with hsym | ⟨hnt, hrel⟩
    · -- a SYMBOL-term key was appended: its entity list outgrew the easy list
      obtain ⟨pp, hpp, hpe⟩ := List.mem_map.1 hsym
      have hts : (dictGet q.term_dict s).isSome := by
        refine (dictGet_isSome_iff_mem_keysOf _ _).2 ?_
        exact hpe ▸ List.mem_map_of_mem _ (List.mem_of_mem_filter hpp)
      have hgrow := append_rs_tgLen_strict pre q hok s v' hmem hts
      have hbefore : tgLen q s = q.easy_answer_list.length := by
        have hmem0 : ((dictGet q.term_grounded_entity_id_dict pp.1).getD []).length
            ∈ perInstanceLens q := by
          unfold perInstanceLens
          refine List.mem_cons_of_mem _ (List.mem_cons_of_mem _ (List.mem_cons_of_mem _ ?_))
          exact List.mem_append_left _ (List.mem_map_of_mem _ hpp)
        have := hcons _ hmem0
        rw [hpe] at this
        exact this
      have hafter : tgLen (append_relation_and_symbols q pre).1 s
          = (append_relation_and_symbols q pre).1.easy_answer_list.length := by
        have hsd' : symbol_dict (append_relation_and_symbols q pre).1 = symbol_dict q := by
          unfold symbol_dict
          rw [hF.2.2.2.2.2.2.1]
        have hmem1 : ((dictGet (append_relation_and_symbols q pre).1.term_grounded_entity_id_dict
              pp.1).getD []).length
            ∈ perInstanceLens (append_relation_and_symbols q pre).1 := by
          unfold perInstanceLens
          refine List.mem_cons_of_mem _ (List.mem_cons_of_mem _ (List.mem_cons_of_mem _ ?_))
          refine List.mem_append_left _ (List.mem_map_of_mem _ ?_)
          rw [hsd']
          exact hpp
        have := hcons' _ hmem1
        rw [hpe] at this
        exact this
      rw [hbefore] at hgrow
      rw [hafter, heasy'] at hgrow
      omega
    · -- a relation key was appended: its relation list outgrew the easy list
      have hgrow := append_rs_pgLen_strict pre q hok s v' hmem hnt
      obtain ⟨g, hg⟩ := mem_keysOf_exists_dictGet _ _ hrel
      have hbefore : pgLen q s = q.easy_answer_list.length := by
        have hmem0 : g.length ∈ perInstanceLens q := by
          unfold perInstanceLens
          refine List.mem_cons_of_mem _ (List.mem_cons_of_mem _ (List.mem_cons_of_mem _ ?_))
          refine List.mem_append_right _ ?_
          exact List.mem_map.2 ⟨(s, g), dictGet_some_mem _ _ _ hg, rfl⟩
        have := hcons _ hmem0
        unfold pgLen
        rw [hg]
        exact this
      have hrel' : s ∈ keysOf (append_relation_and_symbols q pre).1.pred_grounded_relation_id_dict := by
        rw [(append_rs_keys pre q).2]
        exact hrel
      obtain ⟨g', hg'⟩ := mem_keysOf_exists_dictGet _ _ hrel'
      have hafter : pgLen (append_relation_and_symbols q pre).1 s
          = (append_relation_and_symbols q pre).1.easy_answer_list.length := by
        have hmem1 : g'.length ∈ perInstanceLens (append_relation_and_symbols q pre).1 := by
          unfold perInstanceLens
          refine List.mem_cons_of_mem _ (List.mem_cons_of_mem _ (List.mem_cons_of_mem _ ?_))
          refine List.mem_append_right _ ?_
          exact List.mem_map.2 ⟨(s, g'), dictGet_some_mem _ _ _ hg', rfl⟩
        have := hcons' _ hmem1
        unfold pgLen
        rw [hg']
        exact this
      rw [hbefore] at hgrow
      rw [hafter, heasy'] at hgrow
      omega

/-- Witness for the amended C9: appending `s1` (a SYMBOL term) and then
hitting the unknown key `bad` leaves the `formulaQa` query's lists
inconsistent. -/
theorem C9_witness :
    ((∀ p ∈ [("s1", (5 : Int))], appendKeyOk (EFO1Query.mk' formulaQa) p.1) ∧
     ¬(dictGet (EFO1Query.mk' formulaQa).term_dict "bad").isSome ∧
     dictGet (EFO1Query.mk' formulaQa).pred_grounded_relation_id_dict "bad" = none ∧
     ("s1", (5 : Int)) ∈ [("s1", (5 : Int))] ∧
     "s1" ∈ keysOf (symbol_dict (EFO1Query.mk' formulaQa)) ∧
     perInstanceConsistent (EFO1Query.mk' formulaQa)) ∧
    ¬ perInstanceConsistent
        (append_relation_and_symbols (EFO1Query.mk' formulaQa) [("s1", 5)]).1 := by
  refine ⟨⟨by decide, by decide, by decide, by decide, by decide, by decide⟩, ?_⟩
  exact (C9_amended_failed_append (EFO1Query.mk' formulaQa) [("s1", 5)] [] "bad" 1
      (.plist []) (.plist []) (.plist []) (by decide) (by decide) (by decide)).2.2.2.2
    "s1" 5 (by decide) (Or.inl (by decide)) (by decide)

/-- Claim C10: calling `get_bfs_variable_ordering` with a source name
absent from `term_name2atomic_name_list` returns only level 0 but, as a
side effect, the defaultdict lookup inserts an empty adjacency entry for
that name; with a source already present (on a constructor-built query)
the call leaves the query unchanged — every dictionary and list,
including the adjacency index, is exactly as before. -/
theorem C10_bfs_defaultdict_frame (q : EFO1Query) (f : Formula) (s1 s2 : String) :
    (dictGet q.term_name2atomic_name_list s1 = none →
      get_bfs_variable_ordering q s1
        = some (.ok [[(s1, 0)]],
            { q with term_name2atomic_name_list :=
                q.term_name2atomic_name_list ++ [(s1, [])] })) ∧
    (s2 ∈ keysOf (EFO1Query.mk' f).term_name2atomic_name_list →
      ∃ r, get_bfs_variable_ordering (EFO1Query.mk' f) s2
        = some (r, EFO1Query.mk' f)) := by
  constructor
  · intro h
    exact get_bfs_absent q s1 h
  · intro hs2
    have hc : IndexClosed (EFO1Query.mk' f).atomic_dict
        (EFO1Query.mk' f).term_name2atomic_name_list := by
      intro p hp
      exact initIndex_mem_keysOf (Formula.get_atomics f) p hp
    have hcard : ((bfsTermUniverse (EFO1Query.mk' f).atomic_dict).toFinset \
        (s2.data.map (fun c => String.mk [c])).toFinset).card
        < (bfsTermUniverse (EFO1Query.mk' f).atomic_dict).length + 1 := by
      calc ((bfsTermUniverse (EFO1Query.mk' f).atomic_dict).toFinset \
              (s2.data.map (fun c => String.mk [c])).toFinset).card
          ≤ (bfsTermUniverse (EFO1Query.mk' f).atomic_dict).toFinset.card :=
            Finset.card_le_card (Finset.sdiff_subset)
        _ ≤ (bfsTermUniverse (EFO1Query.mk' f).atomic_dict).length :=
            List.toFinset_card_le _
        _ < (bfsTermUniverse (EFO1Query.mk' f).atomic_dict).length + 1 :=
            Nat.lt_succ_self _
    have hb := bfsLoop_isSome_of_lt (EFO1Query.mk' f).atomic_dict
      ((bfsTermUniverse (EFO1Query.mk' f).atomic_dict).length + 1) [[(s2, 0)]]
      { next := [], visited := s2.data.map (fun c => String.mk [c]),
        index := (EFO1Query.mk' f).term_name2atomic_name_list, err := none }
      hcard (by simp)
    obtain ⟨out, hout⟩ := Option.isSome_iff_exists.1 hb
    obtain ⟨levels, stf⟩ := out
    have hidx := bfsLoop_index_const (EFO1Query.mk' f).atomic_dict
      (EFO1Query.mk' f).term_name2atomic_name_list hc _ _ _ _ rfl
      (fun e he => by simp at he)
      (by
        intro ee hee
        have : ee = (s2, 0) := by simpa using hee
        subst this
        exact hs2)
      hout
    have hidx' : stf.index = (EFO1Query.mk' f).term_name2atomic_name_list := hidx
    have hfin := get_bfs_eq_of_bfsLoop (EFO1Query.mk' f) s2 levels stf hout
    rw [hidx'] at hfin
    exact ⟨_, hfin⟩

/-- Witness for C10 on `formulaQa`: the absent source `zz` inserts an
empty adjacency entry; the present source `f` leaves the query as is. -/
theorem C10_witness :
    (dictGet (EFO1Query.mk' formulaQa).term_name2atomic_name_list "zz" = none ∧
     get_bfs_variable_ordering (EFO1Query.mk' formulaQa) "zz"
       = some (.ok [[("zz", 0)]],
           { EFO1Query.mk' formulaQa with term_name2atomic_name_list :=
               (EFO1Query.mk' formulaQa).term_name2atomic_name_list ++ [("zz", [])] })) ∧
    ("f" ∈ keysOf (EFO1Query.mk' formulaQa).term_name2atomic_name_list ∧
     ∃ r, get_bfs_variable_ordering (EFO1Query.mk' formulaQa) "f"
       = some (r, EFO1Query.mk' formulaQa)) := by
  constructor
  · exact ⟨by decide,
      (C10_bfs_defaultdict_frame (EFO1Query.mk' formulaQa) formulaQa "zz" "f").1 (by decide)⟩
  · exact ⟨by decide,
      (C10_bfs_defaultdict_frame (EFO1Query.mk' formulaQa) formulaQa "zz" "f").2 (by decide)⟩

end Foq
